/- Verification development for the cache_mrc trace-driven cache simulator.

   The Rust sources are shallowly embedded:
     * `src/evict_policy/lru_policy.rs`  → `LruPolicy`   (backed by a model of
       the `lru` crate's `LruCache`, an item-count-capacity LRU list),
     * `src/evict_policy/fifo_policy.rs` → `FifoPolicy`,
     * `src/evict_policy/lfu_policy.rs`  → `LfuPolicy`,
     * `src/evict_policy/twoq_policy.rs` → `TwoQPolicy`,
     * `src/main.rs` (Shards, ShardsFixedRate, get_caches, MiniSim) →
       `ShardsFixedRate`, `getCachesSizes`, `MiniSim`.

   Machine integers (u64/usize) are modelled as `Nat`; subtraction sites are
   guarded by the same conditions the Rust code relies on.  `HashMap`s are
   modelled as association lists with first-match lookup (`mapLookup`),
   `BTreeMap` as an ordered association list, `VecDeque` as a `List` whose
   head is the front.  f64 values appearing in `MiniSim::curve` are modelled
   by `FVal` (an exact rational together with NaN/±infinity), which is exact
   on every operation the analysed claims exercise. -/
import Mathlib

namespace CacheMrc

abbrev Key := Nat

/-- First-match lookup in an association-list model of `HashMap`. -/
def mapLookup {α : Type} (m : List (Key × α)) (k : Key) : Option α :=
  (m.find? (fun e => e.1 == k)).map Prod.snd

/-- `HashMap::remove`: drop the (first) binding of `k`. -/
def mapRemove {α : Type} (m : List (Key × α)) (k : Key) : List (Key × α) :=
  m.eraseP (fun e => e.1 == k)

/-- `HashMap::insert`: bind `k` to `v`, replacing any previous binding. -/
def mapInsert {α : Type} (m : List (Key × α)) (k : Key) (v : α) : List (Key × α) :=
  (k, v) :: m.eraseP (fun e => e.1 == k)

/-- Total of the stored sizes of an association list keyed by `Key`. -/
def sumSizes (l : List (Key × Nat)) : Nat := (l.map Prod.snd).sum

/- ------------------------------------------------------------------
   Model of the `lru` crate's `LruCache<Key, u64>`: a recency list whose
   head is the most recently used entry, with an item-count capacity.
   ------------------------------------------------------------------ -/

/-- `LruCache::contains`: membership, no recency update. -/
def lcContains (l : List (Key × Nat)) (k : Key) : Bool :=
  l.any (fun e => e.1 == k)

/-- `LruCache::get`: on a hit, move the entry to the most-recently-used end. -/
def lcGet (l : List (Key × Nat)) (k : Key) : List (Key × Nat) :=
  match l.find? (fun e => e.1 == k) with
  | some e => e :: l.eraseP (fun e' => e'.1 == k)
  | none => l

/-- `LruCache::put` with item capacity `icap`: replace-and-refresh on a
resident key; otherwise insert at the MRU end, auto-evicting the LRU entry
when the cache already holds `icap` items. -/
def lcPut (icap : Nat) (l : List (Key × Nat)) (k : Key) (v : Nat) : List (Key × Nat) :=
  if lcContains l k then (k, v) :: l.eraseP (fun e => e.1 == k)
  else if l.length == icap then (k, v) :: l.dropLast
  else (k, v) :: l

/- ------------------------------------------------------------------
   LruPolicy (src/evict_policy/lru_policy.rs)
   ------------------------------------------------------------------ -/

structure LruPolicy where
  capacity : Nat
  size : Nat
  cache : List (Key × Nat)
deriving DecidableEq, Repr

/-- `LruPolicy::new` (the Rust code additionally panics when `capacity = 0`
via `NonZeroUsize::new(..).unwrap()`; theorems about `LruPolicy` therefore
assume `0 < capacity` where it matters). -/
def LruPolicy.new (capacity : Nat) : LruPolicy := ⟨capacity, 0, []⟩

/-- The `while self.size + size > self.capacity { pop_lru or break }` loop of
`LruPolicy::put`, phrased on the reversed recency list (head = LRU entry). -/
def lruEvictRev (cap s : Nat) : Nat → List (Key × Nat) → Nat × List (Key × Nat)
  | size, [] => (size, [])
  | size, e :: rest =>
    if size + s ≤ cap then (size, e :: rest)
    else lruEvictRev cap s (size - e.2) rest

/-- `LruPolicy::put`: evict LRU entries while the tracked size would exceed
capacity, then insert unconditionally and add `s` to the tracked size. -/
def LruPolicy.put (st : LruPolicy) (k : Key) (s : Nat) : LruPolicy :=
  let r := lruEvictRev st.capacity s st.size st.cache.reverse
  { st with size := r.1 + s, cache := lcPut st.capacity r.2.reverse k s }

/-- `LruPolicy::get`: hit signal plus the recency refresh done by
`LruCache::get`. -/
def LruPolicy.get (st : LruPolicy) (k : Key) : Option Unit × LruPolicy :=
  if lcContains st.cache k then (some (), { st with cache := lcGet st.cache k })
  else (none, st)

/- ------------------------------------------------------------------
   FifoPolicy (src/evict_policy/fifo_policy.rs)
   ------------------------------------------------------------------ -/

structure FifoPolicy where
  capacity : Nat
  size : Nat
  cache : List (Key × Nat)
  queue : List Key
deriving DecidableEq, Repr

def FifoPolicy.new (capacity : Nat) : FifoPolicy := ⟨capacity, 0, [], []⟩

/-- `FifoPolicy::get`: lookup only, no reordering. -/
def FifoPolicy.get (st : FifoPolicy) (k : Key) : Option Unit :=
  (mapLookup st.cache k).map (fun _ => ())

/-- The eviction loop of `FifoPolicy::put`: pop the queue front; if the
popped key is still in the map, remove it and subtract its size. -/
def fifoEvict (cap s : Nat) : List Key → Nat → List (Key × Nat) →
    List Key × Nat × List (Key × Nat)
  | q, size, m =>
    if size + s ≤ cap then (q, size, m)
    else
      match q with
      | [] => ([], size, m)
      | k0 :: rest =>
        match mapLookup m k0 with
        | some sz => fifoEvict cap s rest (size - sz) (mapRemove m k0)
        | none => fifoEvict cap s rest size m

/-- `FifoPolicy::put`. -/
def FifoPolicy.put (st : FifoPolicy) (k : Key) (s : Nat) : FifoPolicy :=
  let r := fifoEvict st.capacity s st.queue st.size st.cache
  { st with
    queue := r.1 ++ [k]
    size := r.2.1 + s
    cache := mapInsert r.2.2 k s }

/- ------------------------------------------------------------------
   The engine access protocol (spec §4.3 / MiniSim::process): for each trace
   event, count a hit if `get` succeeds, otherwise `put` the event.
   ------------------------------------------------------------------ -/

def lruAccess (st : LruPolicy) (e : Key × Nat) : LruPolicy × Bool :=
  match st.get e.1 with
  | (some _, st') => (st', true)
  | (none, st') => (st'.put e.1 e.2, false)

def lruRunFrom (st : LruPolicy) : List (Key × Nat) → LruPolicy × Nat
  | [] => (st, 0)
  | e :: tr =>
    let r := lruAccess st e
    let rest := lruRunFrom r.1 tr
    (rest.1, (if r.2 then 1 else 0) + rest.2)

/-- Number of hits an `LruPolicy` engine of capacity `cap` scores on `tr`. -/
def lruHitCount (cap : Nat) (tr : List (Key × Nat)) : Nat :=
  (lruRunFrom (LruPolicy.new cap) tr).2

/-- Hit ratio of the LRU engine on a trace, as an exact rational. -/
def lruHitRate (cap : Nat) (tr : List (Key × Nat)) : ℚ :=
  (lruHitCount cap tr : ℚ) / (tr.length : ℚ)

def fifoAccess (st : FifoPolicy) (e : Key × Nat) : FifoPolicy × Bool :=
  match st.get e.1 with
  | some _ => (st, true)
  | none => (st.put e.1 e.2, false)

def fifoRunFrom (st : FifoPolicy) : List (Key × Nat) → FifoPolicy × Nat
  | [] => (st, 0)
  | e :: tr =>
    let r := fifoAccess st e
    let rest := fifoRunFrom r.1 tr
    (rest.1, (if r.2 then 1 else 0) + rest.2)

def fifoHitCount (cap : Nat) (tr : List (Key × Nat)) : Nat :=
  (fifoRunFrom (FifoPolicy.new cap) tr).2

def fifoHitRate (cap : Nat) (tr : List (Key × Nat)) : ℚ :=
  (fifoHitCount cap tr : ℚ) / (tr.length : ℚ)

/- ------------------------------------------------------------------
   Abstract unit-size LRU: the behaviour of `LruPolicy` when every access
   has size 1 (proved as a simulation below).  The state is just the
   recency-ordered key list, head = MRU.
   ------------------------------------------------------------------ -/

def sLruStep (cap : Nat) (l : List Key) (k : Key) : List Key × Bool :=
  if k ∈ l then (k :: l.erase k, true) else (k :: l.take (cap - 1), false)

def sLruRunFrom (cap : Nat) (l : List Key) : List Key → List Key × Nat
  | [] => (l, 0)
  | k :: ks =>
    let r := sLruStep cap l k
    let rest := sLruRunFrom cap r.1 ks
    (rest.1, (if r.2 then 1 else 0) + rest.2)

def sLruHitCount (cap : Nat) (ks : List Key) : Nat := (sLruRunFrom cap [] ks).2

/- ------------------------------------------------------------------
   LfuPolicy (src/evict_policy/lfu_policy.rs)

   `key_to_freq_and_size : HashMap<Key, (u64, u64)>` is an association list,
   `freq_to_keys : BTreeMap<u64, Vec<Key>>` an association list sorted by
   ascending frequency (so its head is the lowest surviving frequency, as
   delivered by `iter_mut().next()`).
   ------------------------------------------------------------------ -/

structure LfuPolicy where
  capacity : Nat
  size : Nat
  keyToFreqSize : List (Key × (Nat × Nat))
  freqToKeys : List (Nat × List Key)
deriving DecidableEq, Repr

def LfuPolicy.new (capacity : Nat) : LfuPolicy := ⟨capacity, 0, [], []⟩

/-- `freq_to_keys.entry(f).or_insert_with(Vec::new).push(k)` on the sorted
association list. -/
def btreePush (f : Nat) (k : Key) : List (Nat × List Key) → List (Nat × List Key)
  | [] => [(f, [k])]
  | (g, ks) :: rest =>
    if f < g then (f, [k]) :: (g, ks) :: rest
    else if f = g then (g, ks ++ [k]) :: rest
    else (g, ks) :: btreePush f k rest

/-- The bucket surgery of `LfuPolicy::get` on the old frequency: retain all
keys other than `k`, dropping the bucket when it becomes empty. -/
def bucketRetain (f : Nat) (k : Key) : List (Nat × List Key) → List (Nat × List Key)
  | [] => []
  | (g, ks) :: rest =>
    if g = f then
      let ks' := ks.filter (fun k' => k' ≠ k)
      if ks'.isEmpty then rest else (g, ks') :: rest
    else (g, ks) :: bucketRetain f k rest

/-- `LfuPolicy::get`: on a resident key, move it from bucket `f` to bucket
`f+1` and bump its stored frequency. -/
def LfuPolicy.get (st : LfuPolicy) (k : Key) : Option Unit × LfuPolicy :=
  match mapLookup st.keyToFreqSize k with
  | some fs =>
    let b := bucketRetain fs.1 k st.freqToKeys
    (some (), { st with
      keyToFreqSize := mapInsert st.keyToFreqSize k (fs.1 + 1, fs.2)
      freqToKeys := btreePush (fs.1 + 1) k b })
  | none => (none, st)

/-- Drain one frequency bucket: remove each drained key from the key map,
subtracting its stored size. -/
def lfuDrain (ks : List Key) (size : Nat) (m : List (Key × (Nat × Nat))) :
    Nat × List (Key × (Nat × Nat)) :=
  ks.foldl (fun acc k =>
    match mapLookup acc.2 k with
    | some fs => (acc.1 - fs.2, mapRemove acc.2 k)
    | none => acc) (size, m)

/-- The eviction loop of `LfuPolicy::put`: while the new item does not fit,
drain the whole lowest surviving frequency bucket. -/
def lfuEvictLoop (cap s : Nat) : List (Nat × List Key) → Nat → List (Key × (Nat × Nat)) →
    List (Nat × List Key) × Nat × List (Key × (Nat × Nat))
  | buckets, size, m =>
    if size + s ≤ cap then (buckets, size, m)
    else
      match buckets with
      | [] => ([], size, m)
      | (_, ks) :: rest =>
        let r := lfuDrain ks size m
        lfuEvictLoop cap s rest r.1 r.2

/-- `LfuPolicy::put`. -/
def LfuPolicy.put (st : LfuPolicy) (k : Key) (s : Nat) : LfuPolicy :=
  if st.capacity = 0 ∨ st.capacity < s then st
  else if (mapLookup st.keyToFreqSize k).isSome then (st.get k).2
  else
    let r := lfuEvictLoop st.capacity s st.freqToKeys st.size st.keyToFreqSize
    { st with
      size := r.2.1 + s
      keyToFreqSize := mapInsert r.2.2 k (1, s)
      freqToKeys := btreePush 1 k r.1 }

inductive CacheOp where
  | get (k : Key)
  | put (k : Key) (s : Nat)
deriving DecidableEq, Repr

def lfuApply (st : LfuPolicy) : CacheOp → LfuPolicy
  | .get k => (st.get k).2
  | .put k s => st.put k s

def lfuRunOps (cap : Nat) (ops : List CacheOp) : LfuPolicy :=
  ops.foldl lfuApply (LfuPolicy.new cap)

/-- Keys of an association list. -/
def mapKeys {α : Type} (m : List (Key × α)) : List Key := m.map Prod.fst

/- ------------------------------------------------------------------
   TwoQPolicy (src/evict_policy/twoq_policy.rs)

   `hot`/`cold` are `VecDeque`s, head = front (`push_front` side); `cold_map`
   maps a cold key to its index in `cold`; `key_to_size` records admitted
   sizes.
   ------------------------------------------------------------------ -/

structure TwoQPolicy where
  hot : List Key
  cold : List Key
  coldMap : List (Key × Nat)
  capacity : Nat
  size : Nat
  keyToSize : List (Key × Nat)
deriving DecidableEq, Repr

def TwoQPolicy.new (capacity : Nat) : TwoQPolicy := ⟨[], [], [], capacity, 0, []⟩

/-- `TwoQPolicy::update_cold_indices`: insert the current index of every
cold key into `cold_map`. -/
def TwoQPolicy.updateColdIndices (st : TwoQPolicy) : TwoQPolicy :=
  { st with coldMap := st.cold.enum.foldl (fun m ik => mapInsert m ik.2 ik.1) st.coldMap }

/-- `TwoQPolicy::get`: promote a cold hit to the head of hot, refresh a hot
hit to the head of hot, miss otherwise. -/
def TwoQPolicy.get (st : TwoQPolicy) (k : Key) : Option Unit × TwoQPolicy :=
  match mapLookup st.coldMap k with
  | some idx =>
    let st' := { st with
      cold := st.cold.eraseIdx idx
      coldMap := mapRemove st.coldMap k }
    (some (), TwoQPolicy.updateColdIndices { st' with hot := k :: st'.hot })
  | none =>
    match st.hot.findIdx? (fun k' => k' == k) with
    | some pos => (some (), { st with hot := k :: st.hot.eraseIdx pos })
    | none => (none, st)

/-- The eviction loop of `TwoQPolicy::put` once `hot` is exhausted: pop the
cold tail (removing it from `cold_map`), dropping its recorded size.
Returns `false` in the first component when no space could be made. -/
def twoqEvictCold (cap s : Nat) : List Key → List (Key × Nat) → Nat → List (Key × Nat) →
    Bool × List Key × List (Key × Nat) × Nat × List (Key × Nat)
  | revCold, cm, size, kts =>
    if size + s ≤ cap then (true, revCold, cm, size, kts)
    else
      match revCold with
      | [] => (false, [], cm, size, kts)
      | k0 :: rest =>
        let cm' := mapRemove cm k0
        match mapLookup kts k0 with
        | some sz => twoqEvictCold cap s rest cm' (size - sz) (mapRemove kts k0)
        | none => twoqEvictCold cap s rest cm' size kts

/-- The eviction loop of `TwoQPolicy::put`: pop the hot tail first (dropping
its recorded size), falling back to the cold tail.  The queues are handled
in reversed form (head = tail of the `VecDeque`). -/
def twoqEvictHot (cap s : Nat) : List Key → List Key → List (Key × Nat) → Nat → List (Key × Nat) →
    Bool × List Key × List Key × List (Key × Nat) × Nat × List (Key × Nat)
  | revHot, revCold, cm, size, kts =>
    if size + s ≤ cap then (true, revHot, revCold, cm, size, kts)
    else
      match revHot with
      | [] =>
        let r := twoqEvictCold cap s revCold cm size kts
        (r.1, [], r.2.1, r.2.2.1, r.2.2.2.1, r.2.2.2.2)
      | k0 :: rest =>
        match mapLookup kts k0 with
        | some sz => twoqEvictHot cap s rest revCold cm (size - sz) (mapRemove kts k0)
        | none => twoqEvictHot cap s rest revCold cm size kts

/-- The eviction phase of `TwoQPolicy::put` applied to the whole state:
run the loop over the reversed queues and write back all mutated fields;
the boolean records whether room was made. -/
def TwoQPolicy.putEvict (st1 : TwoQPolicy) (s : Nat) : Bool × TwoQPolicy :=
  let r := twoqEvictHot st1.capacity s st1.hot.reverse st1.cold.reverse
    st1.coldMap st1.size st1.keyToSize
  (r.1, { st1 with
    hot := r.2.1.reverse
    cold := r.2.2.1.reverse
    coldMap := r.2.2.2.1
    size := r.2.2.2.2.1
    keyToSize := r.2.2.2.2.2 })

/-- The admission tail of `TwoQPolicy::put`: account the new item, push it
on cold, refresh `cold_map`, and migrate the cold tail into hot when cold
exceeds half the capacity. -/
def TwoQPolicy.putAdmit (st2 : TwoQPolicy) (k : Key) (s : Nat) : TwoQPolicy :=
  let st3 := { st2 with
    size := st2.size + s
    keyToSize := mapInsert st2.keyToSize k s
    cold := k :: st2.cold }
  let st4 := st3.updateColdIndices
  if st4.capacity / 2 < st4.cold.length then
    match st4.cold.getLast? with
    | some old =>
      { st4 with
        cold := st4.cold.dropLast
        coldMap := mapRemove st4.coldMap old
        hot := old :: st4.hot }
    | none => st4
  else st4

/-- `TwoQPolicy::put`. -/
def TwoQPolicy.put (st : TwoQPolicy) (k : Key) (s : Nat) : TwoQPolicy :=
  match st.get k with
  | (some _, st1) =>
    match mapLookup st1.keyToSize k with
    | some old =>
      { st1 with keyToSize := mapInsert st1.keyToSize k s, size := st1.size - old + s }
    | none => { st1 with keyToSize := mapInsert st1.keyToSize k s }
  | (none, st1) =>
    let e := st1.putEvict s
    if e.1 then (e.2).putAdmit k s else e.2

/- ------------------------------------------------------------------
   Shards sampling (src/main.rs lines 14-107)

   `hash` is `fasthash::murmur3::hash128` of the key's 8 little-endian
   bytes: MurmurHash3 x64 128 with seed 0, modelled bit-exactly on `Nat`
   (all 64-bit arithmetic is taken mod 2^64).
   ------------------------------------------------------------------ -/

def NUM_CACHE_SIZE : Nat := 100

def MODULUS : Nat := 1000

def U64 : Nat := 2 ^ 64

def rotl64 (x r : Nat) : Nat := ((x <<< r) % U64) ||| (x >>> (64 - r))

def fmix64 (k0 : Nat) : Nat :=
  let k1 := k0 ^^^ (k0 >>> 33)
  let k2 := (k1 * 0xff51afd7ed558ccd) % U64
  let k3 := k2 ^^^ (k2 >>> 33)
  let k4 := (k3 * 0xc4ceb9fe1a85ec53) % U64
  k4 ^^^ (k4 >>> 33)

/-- MurmurHash3 x64 128 of an 8-byte little-endian block (seed 0), returned
as the 128-bit value `h1 + h2·2^64` that `fasthash::murmur3::hash128`
yields. -/
def murmur3x64_128of8 (key : Nat) : Nat :=
  let k1a := (key * 0x87c37b91114253d5) % U64
  let k1b := rotl64 k1a 31
  let k1 := (k1b * 0x4cf5ad432745937f) % U64
  let h1a := (0 ^^^ k1) ^^^ 8
  let h2a := (0 : Nat) ^^^ 8
  let h1b := (h1a + h2a) % U64
  let h2b := (h2a + h1b) % U64
  let h1c := fmix64 h1b
  let h2c := fmix64 h2b
  let h1 := (h1c + h2c) % U64
  let h2 := (h2c + h1) % U64
  h1 + h2 * U64

/-- `hash` from src/main.rs. -/
def hash (key : Key) : Nat := murmur3x64_128of8 key

structure ShardsFixedRate where
  globalT : Nat
  sampledCount : Nat
  totalCount : Nat
deriving DecidableEq, Repr

def ShardsFixedRate.new (globalT : Nat) : ShardsFixedRate := ⟨globalT, 0, 0⟩

/-- `Shards::sample_key`: the pure per-key sampling decision. -/
def ShardsFixedRate.sampleKey (st : ShardsFixedRate) (k : Key) : Option Nat :=
  let t := hash k % MODULUS
  if t < st.globalT then some t else none

/-- `ShardsFixedRate::sample`: bump the total counter, then the sampled
counter iff `sample_key` accepts; returns the accept/reject decision. -/
def ShardsFixedRate.sample (st : ShardsFixedRate) (k : Key) : Bool × ShardsFixedRate :=
  let st1 := { st with totalCount := st.totalCount + 1 }
  match st1.sampleKey k with
  | none => (false, st1)
  | some _ => (true, { st1 with sampledCount := st1.sampledCount + 1 })

/- ------------------------------------------------------------------
   MiniSim (src/main.rs lines 109-208)

   `Shards::scale` multiplies by the f64 rate `global_t / 1000.0` and
   truncates; its float rounding is outside the analysed claims, so the
   sampler is carried together with an abstract `Nat → Nat` standing for
   its `scale`, and theorems quantify over that function.
   ------------------------------------------------------------------ -/

/-- `get_caches`: the capacity bank `(i+1) * (max_cache_size / num_caches)`
for `i = 1..=num_caches`, each passed through `scale` when a sampler is
present. -/
def getCachesSizes (maxCacheSize numCaches : Nat) (scaleFn : Option (Nat → Nat)) : List Nat :=
  (List.range numCaches).map (fun j =>
    let cacheSize := ((j + 1) + 1) * (maxCacheSize / numCaches)
    match scaleFn with
    | some f => f cacheSize
    | none => cacheSize)

/-- Exact model of the f64 values involved in `MiniSim::curve`: a rational
(every operation the claims exercise is exact in IEEE double) or one of
NaN, +inf, -inf. -/
inductive FVal where
  | q (x : ℚ)
  | nan
  | inf
  | ninf
deriving DecidableEq, Repr

/-- f64 division (of the nonnegative values occurring in `curve`):
`0.0/0.0 = NaN`, `x/0.0 = +inf` for `x > 0`. -/
def FVal.div : FVal → FVal → FVal
  | .q a, .q b => if b = 0 then (if a = 0 then .nan else (if 0 < a then .inf else .ninf)) else .q (a / b)
  | _, _ => .nan

/-- f64 subtraction restricted to the shapes occurring in `curve`. -/
def FVal.sub : FVal → FVal → FVal
  | .q a, .q b => .q (a - b)
  | .q _, .inf => .ninf
  | .q _, .ninf => .inf
  | .inf, .q _ => .inf
  | .ninf, .q _ => .ninf
  | _, _ => .nan

structure MiniSim where
  maxCacheSize : Nat
  caches : List (Nat × List Key)
  hits : List Nat
  accessCount : Nat
  shards : Option (ShardsFixedRate × (Nat → Nat))
  shardsGlobalT : Nat

/-- Unit-valued `LruCache<Key, ()>` get (recency refresh) for the MiniSim
bank. -/
def bankGet (l : List Key) (k : Key) : List Key :=
  if k ∈ l then k :: l.erase k else l

/-- Unit-valued `LruCache<Key, ()>` put for the MiniSim bank. -/
def bankPut (icap : Nat) (l : List Key) (k : Key) : List Key :=
  if k ∈ l then k :: l.erase k
  else if l.length = icap then k :: l.dropLast
  else k :: l

/-- `MiniSim::new`, with `NonZeroUsize::new(..).unwrap()` modelled as
`none` (panic) as soon as any computed cache size is zero. -/
def MiniSim.mk? (maxCacheSize : Nat) (shards : Option (ShardsFixedRate × (Nat → Nat))) :
    Option MiniSim :=
  let sizes := getCachesSizes maxCacheSize NUM_CACHE_SIZE (shards.map Prod.snd)
  if sizes.all (fun c => c ≠ 0) then
    some
      { maxCacheSize := maxCacheSize
        caches := sizes.map (fun c => (c, []))
        hits := List.replicate NUM_CACHE_SIZE 0
        accessCount := 0
        shards := shards
        shardsGlobalT := (shards.map (fun sh => sh.1.globalT)).getD 0 }
  else none

/-- `MiniSim::process`: bump `access_count`, then for every engine in the
bank a contains-check decides hit (bump counter, refresh) vs miss (put). -/
def MiniSim.process (sim : MiniSim) (k : Key) : MiniSim :=
  { sim with
    accessCount := sim.accessCount + 1
    hits := (sim.caches.zip sim.hits).map (fun ch => if k ∈ ch.1.2 then ch.2 + 1 else ch.2)
    caches := sim.caches.map (fun cl =>
      (cl.1, if k ∈ cl.2 then bankGet cl.2 k else bankPut cl.1 cl.2 k)) }

/-- `MiniSim::verify_shards` (for `ShardsFixedRate`, `get_removal` is the
trait default `None`, so no removal pass happens). -/
def MiniSim.verifyShards (sim : MiniSim) (k : Key) : Bool × MiniSim :=
  match sim.shards with
  | none => (true, sim)
  | some sh =>
    let r := sh.1.sample k
    (r.1, { sim with shards := some (r.2, sh.2) })

/-- `MiniSim::handle`. -/
def MiniSim.handle (sim : MiniSim) (k : Key) : MiniSim :=
  let r := sim.verifyShards k
  if r.1 then r.2.process k else r.2

/-- `MiniSim::curve`: `(0.0, 1.0)` followed by one point per engine,
`((i+1)/100, 1.0 - hits[i]/access_count)`. -/
def MiniSim.curve (sim : MiniSim) : List (FVal × FVal) :=
  (FVal.q 0, FVal.q 1) ::
    sim.hits.enum.map (fun ih =>
      (FVal.div (FVal.q (ih.1 + 1)) (FVal.q NUM_CACHE_SIZE),
       FVal.sub (FVal.q 1) (FVal.div (FVal.q ih.2) (FVal.q sim.accessCount))))

/- ------------------------------------------------------------------
   Spec-side definitions, written from the spec's words to be compared
   against the source embeddings, plus the predicates the theorems use.
   ------------------------------------------------------------------ -/

/-- Modelled from the spec (§4.3): the claimed engine-bank capacities
`⌈(i/N) × max_capacity⌉` for `i = 1..N`, each passed through `scale`
when a sampler is present. -/
def specCapacitiesCeil (maxCapacity n : Nat) (scaleFn : Option (Nat → Nat)) : List Nat :=
  (List.range n).map (fun j =>
    let c := ((j + 1) * maxCapacity + n - 1) / n
    match scaleFn with
    | some f => f c
    | none => c)

/-- Apply an optional scale function (identity when absent). -/
def applyScale (scaleFn : Option (Nat → Nat)) (c : Nat) : Nat :=
  match scaleFn with
  | some f => f c
  | none => c

/-- The capacities the code actually builds, as a closed formula:
`(i+1) · ⌊max_capacity / N⌋` for `i = 1..N`, scaled when sampling. -/
def specCapacitiesFloor (maxCapacity n : Nat) (scaleFn : Option (Nat → Nat)) : List Nat :=
  (List.range n).map (fun j => applyScale scaleFn ((j + 2) * (maxCapacity / n)))

/-- Spec-side description of minimal LRU eviction: the longest prefix of the
recency list (MRU first) that still leaves room for an incoming item of
size `s` within capacity `cap`. -/
def fitFront (cap s : Nat) : List (Key × Nat) → List (Key × Nat)
  | [] => []
  | e :: rest => if e.2 + s ≤ cap then e :: fitFront (cap - e.2) s rest else []

/-- An `LruPolicy` state whose tracked size is an accurate total of the
resident sizes, all of which are positive (this holds in every state
reachable by accesses of positive size; size-0 items can desynchronise the
tracked size through the inner item-count auto-eviction). -/
def LruAccurate (st : LruPolicy) : Prop :=
  st.size = sumSizes st.cache ∧ ∀ e ∈ st.cache, 1 ≤ e.2

/-- Correspondence between an `LruPolicy` state and the abstract unit-size
LRU list: every entry has size 1, the tracked size is the item count, and
the cache is within capacity. -/
def LruUnitInv (cap : Nat) (st : LruPolicy) (l : List Key) : Prop :=
  st.capacity = cap ∧ st.size = l.length ∧
    st.cache = l.map (fun k => (k, 1)) ∧ l.length ≤ cap

/-- Total of the sizes recorded in LFU's `key_to_freq_and_size`. -/
def lfuTotal (m : List (Key × (Nat × Nat))) : Nat := (m.map (fun e => e.2.2)).sum

/-- A key appears in some bucket of `freq_to_keys`. -/
def bucketsContain (b : List (Nat × List Key)) (k : Key) : Prop := ∃ e ∈ b, k ∈ e.2

/-- The bookkeeping LFU maintains from construction onwards: the tracked
size is the total of the recorded sizes, keys are unique, every recorded
key sits in some frequency bucket, and the size is within capacity. -/
def LfuInv (st : LfuPolicy) : Prop :=
  st.size = lfuTotal st.keyToFreqSize ∧
    (mapKeys st.keyToFreqSize).Nodup ∧
    (∀ e ∈ st.keyToFreqSize, bucketsContain st.freqToKeys e.1) ∧
    st.size ≤ st.capacity

/-- The bookkeeping 2Q maintains from construction onwards: every key the
`get` path can hit (via `cold_map` or `hot`) has a recorded size. -/
def TwoQPolicy.mapsCover (st : TwoQPolicy) : Prop :=
  (∀ e ∈ st.coldMap, (mapLookup st.keyToSize e.1).isSome) ∧
    (∀ k ∈ st.hot, (mapLookup st.keyToSize k).isSome)

instance (st : TwoQPolicy) : Decidable st.mapsCover := by
  unfold TwoQPolicy.mapsCover; infer_instance

/- ==================================================================
   Theorems
   ================================================================== -/

/-- C8: the sampling decision is a deterministic function of the key and the
configured threshold alone: samplers with the same `global_t`, whatever
their counter state (i.e. whatever accesses they have already processed),
return the same accept/reject decision for every key, and that decision is
exactly `hash k % MODULUS < global_t`. -/
theorem C8_sampling_deterministic (t sc tc sc' tc' : Nat) (k : Key) :
    (ShardsFixedRate.sample ⟨t, sc, tc⟩ k).1 = (ShardsFixedRate.sample ⟨t, sc', tc'⟩ k).1 ∧
      (ShardsFixedRate.sample ⟨t, sc, tc⟩ k).1 = decide (hash k % MODULUS < t) := by
  unfold ShardsFixedRate.sample ShardsFixedRate.sampleKey
  by_cases h : hash k % MODULUS < t <;> simp [h]

/-- C9: the first point of `MiniSim::curve` is always `(0.0, 1.0)`,
whatever the simulator state (hence whatever trace, sampler, or bank). -/
theorem C9_curve_head (sim : MiniSim) :
    sim.curve.head? = some (FVal.q 0, FVal.q 1) := rfl

/-- C3: with `total_accesses_seen = 0` (here: a freshly constructed
simulator that processed no access, e.g. an empty or fully filtered trace)
`curve` does not fail, but every point after the first carries the f64
value `1.0 - 0.0/0.0 = NaN`, not the miss ratio `1.0` the spec mandates. -/
theorem C3_curve_nan_on_zero_accesses :
    (MiniSim.mk? 1000 none).map
      (fun sim => (sim.curve.drop 1).all (fun p => p.2 == FVal.nan) &&
        (sim.curve.length == NUM_CACHE_SIZE + 1)) = some true := by decide

/-- C2 counterexample: at `max_capacity = 1000`, `N = 100`, no sampling,
the first bank capacity built by `get_caches` is `(1+1)·(1000/100) = 20`,
while the claimed formula `⌈(i/N)·max⌉` gives `10`; the banks differ. -/
theorem C2_counterexample :
    getCachesSizes 1000 NUM_CACHE_SIZE none ≠ specCapacitiesCeil 1000 NUM_CACHE_SIZE none ∧
      (getCachesSizes 1000 NUM_CACHE_SIZE none).head? = some 20 ∧
      (specCapacitiesCeil 1000 NUM_CACHE_SIZE none).head? = some 10 := by decide

/-- C2 (amended): the bank has `N` engines whose capacities are
`(i+1) · ⌊max_capacity / N⌋` for `i = 1..N` — floor division and an
off-by-one factor, not `⌈(i/N)·max⌉` — and each capacity is passed through
`scale()` before engine construction when a sampler is present. -/
theorem C2_capacities_floor_formula (maxCapacity : Nat) (scaleFn : Option (Nat → Nat)) :
    getCachesSizes maxCapacity NUM_CACHE_SIZE scaleFn =
        specCapacitiesFloor maxCapacity NUM_CACHE_SIZE scaleFn ∧
      (getCachesSizes maxCapacity NUM_CACHE_SIZE scaleFn).length = NUM_CACHE_SIZE := by
  refine ⟨rfl, ?_⟩
  simp [getCachesSizes]

/-- C10: `MiniSim::new` panics (modelled as `none`) whenever any computed
bank capacity is zero; in particular whenever `max_cache_size` is below the
number of sweep points (100), since then `max_cache_size / 100 = 0` makes
every capacity zero.  The scale-to-zero case is an instance of the first
conjunct with a sampler whose `scale` returns 0. -/
theorem C10_mk_panics_on_zero_capacity :
    (∀ (maxCacheSize : Nat) (shards : Option (ShardsFixedRate × (Nat → Nat))),
        0 ∈ getCachesSizes maxCacheSize NUM_CACHE_SIZE (shards.map Prod.snd) →
        MiniSim.mk? maxCacheSize shards = none) ∧
      (∀ maxCacheSize : Nat, maxCacheSize < NUM_CACHE_SIZE →
        MiniSim.mk? maxCacheSize none = none) := by
  constructor
  · intro maxCacheSize shards h0
    unfold MiniSim.mk?
    rw [if_neg]
    simp only [List.all_eq_true, ne_eq, not_forall]
    exact ⟨0, h0, by simp⟩
  · intro maxCacheSize hlt
    unfold MiniSim.mk?
    rw [if_neg]
    simp only [List.all_eq_true, ne_eq, not_forall]
    refine ⟨0, ?_, by simp⟩
    have hdiv : maxCacheSize / NUM_CACHE_SIZE = 0 := Nat.div_eq_of_lt hlt
    simp only [getCachesSizes, hdiv, Nat.mul_zero, List.mem_map]
    exact ⟨0, by simp [NUM_CACHE_SIZE], rfl⟩

/-- C10 witness: `MiniSim::new` with `max_cache_size = 50 < 100` panics, and
with a sampler whose `scale` collapses every capacity to zero it panics as
well. -/
theorem C10_witness :
    (50 < NUM_CACHE_SIZE ∧ MiniSim.mk? 50 none = none) ∧
      (0 ∈ getCachesSizes 1000 NUM_CACHE_SIZE
          ((some (ShardsFixedRate.new 100, fun _ => 0)).map Prod.snd) ∧
        MiniSim.mk? 1000 (some (ShardsFixedRate.new 100, fun _ => 0)) = none) :=
  ⟨⟨by decide, C10_mk_panics_on_zero_capacity.2 50 (by decide)⟩,
    ⟨by decide, C10_mk_panics_on_zero_capacity.1 1000 _ (by decide)⟩⟩

/-- C1 counterexample: hit ratios are not monotone in capacity.  For the
weighted LRU engine, on the trace
`(1,4),(2,1),(1,1),(3,2),(1,4),(3,2),(1,4),(3,2)` the capacity-3 engine
scores hit ratio 4/8 while the capacity-5 engine scores 1/8 (a re-put after
eviction stores the key with a smaller size in the small cache, which then
retains it while the large cache thrashes).  For FIFO, Bélády's anomaly on
`1,2,3,4,1,2,5,1,2,3,4,5` (unit sizes) gives 3/12 at capacity 3 but 2/12 at
capacity 4. -/
theorem C1_counterexample :
    (3 < 5 ∧
        lruHitRate 5 [(1,4),(2,1),(1,1),(3,2),(1,4),(3,2),(1,4),(3,2)] <
          lruHitRate 3 [(1,4),(2,1),(1,1),(3,2),(1,4),(3,2),(1,4),(3,2)]) ∧
      (3 < 4 ∧
        fifoHitRate 4 [(1,1),(2,1),(3,1),(4,1),(1,1),(2,1),(5,1),(1,1),(2,1),(3,1),(4,1),(5,1)] <
          fifoHitRate 3 [(1,1),(2,1),(3,1),(4,1),(1,1),(2,1),(5,1),(1,1),(2,1),(3,1),(4,1),(5,1)]) := by
  have h5 : lruHitCount 5 [(1,4),(2,1),(1,1),(3,2),(1,4),(3,2),(1,4),(3,2)] = 1 := by decide
  have h3 : lruHitCount 3 [(1,4),(2,1),(1,1),(3,2),(1,4),(3,2),(1,4),(3,2)] = 4 := by decide
  have f4 : fifoHitCount 4
      [(1,1),(2,1),(3,1),(4,1),(1,1),(2,1),(5,1),(1,1),(2,1),(3,1),(4,1),(5,1)] = 2 := by decide
  have f3 : fifoHitCount 3
      [(1,1),(2,1),(3,1),(4,1),(1,1),(2,1),(5,1),(1,1),(2,1),(3,1),(4,1),(5,1)] = 3 := by decide
  refine ⟨⟨by norm_num, ?_⟩, by norm_num, ?_⟩
  · simp only [lruHitRate, h5, h3, List.length_cons, List.length_nil]
    norm_num
  · simp only [fifoHitRate, f4, f3, List.length_cons, List.length_nil]
    norm_num

/-- C4 counterexample: `LruPolicy::put` of a single item larger than the
capacity does not skip the admission: with capacity 2, `put(1, 5)` leaves
key 1 resident with tracked size 5. -/
theorem C4_counterexample :
    ((LruPolicy.new 2).put 1 5).cache = [(1, 5)] ∧
      ((LruPolicy.new 2).put 1 5).size = 5 ∧
      lcContains ((LruPolicy.new 2).put 1 5).cache 1 = true ∧ 2 < 5 := by decide

/-- C5 counterexample: for 2Q with capacity 10, `put(1,2); put(2,8);
put(1,9)` ends with occupied size 17 > 10 although every item size (2, 8,
9) is at most the capacity: the resident-key size-update path of
`TwoQPolicy::put` never evicts. -/
theorem C5_counterexample :
    ((((TwoQPolicy.new 10).put 1 2).put 2 8).put 1 9).size = 17 ∧
      ((((TwoQPolicy.new 10).put 1 2).put 2 8).put 1 9).capacity = 10 ∧
      2 ≤ 10 ∧ 8 ≤ 10 ∧ 9 ≤ 10 := by decide

/-- C6 counterexample: two successive `LruPolicy::put(1, 3)` calls on a
fresh capacity-10 engine leave occupied size 6, not 3 — the size of the
already-resident key is counted twice. -/
theorem C6_counterexample :
    (((LruPolicy.new 10).put 1 3).put 1 3).size = 6 ∧
      ((LruPolicy.new 10).put 1 3).size = 3 := by decide

/-- C7 counterexample: `LfuPolicy::put` can evict more than needed.  With
capacity 2 and unit sizes, after `put 1; put 2; put 3` the whole lowest
frequency bucket {1, 2} was drained although evicting key 1 alone would
have made room (1 + 1 ≤ 2): only key 3 is resident and size is 1 < 2. -/
theorem C7_counterexample :
    mapKeys ((((LfuPolicy.new 2).put 1 1).put 2 1).put 3 1).keyToFreqSize = [3] ∧
      ((((LfuPolicy.new 2).put 1 1).put 2 1).put 3 1).size = 1 ∧ 1 + 1 ≤ 2 := by decide

/- ------------------------------------------------------------------
   Association-list map lemmas.
   ------------------------------------------------------------------ -/

theorem mapLookup_isSome_iff {α : Type} (m : List (Key × α)) (k : Key) :
    (mapLookup m k).isSome ↔ ∃ v, (k, v) ∈ m := by
  unfold mapLookup
  constructor
  · intro h
    obtain ⟨e, he⟩ := Option.isSome_iff_exists.mp h
    obtain ⟨x, hx, _⟩ := Option.map_eq_some'.mp he
    obtain ⟨k0, v0⟩ := x
    have hk := List.find?_some hx
    have hmem := List.mem_of_find?_eq_some hx
    exact ⟨v0, (show k0 = k by simpa using hk) ▸ hmem⟩
  · rintro ⟨v, hmem⟩
    have h1 : (List.find? (fun e => e.1 == k) m).isSome :=
      List.find?_isSome.mpr ⟨(k, v), hmem, by simp⟩
    obtain ⟨e, he⟩ := Option.isSome_iff_exists.mp h1
    simp [he]

theorem mapLookup_insert_self {α : Type} (m : List (Key × α)) (k : Key) (v : α) :
    mapLookup (mapInsert m k v) k = some v := by
  simp [mapLookup, mapInsert, List.find?_cons_of_pos]

theorem mapLookup_insert_isSome {α : Type} (m : List (Key × α)) (k k' : Key) (v : α)
    (h : (mapLookup m k).isSome) : (mapLookup (mapInsert m k' v) k).isSome := by
  rcases eq_or_ne k k' with rfl | hne
  · rw [mapLookup_insert_self]; rfl
  · rw [mapLookup_isSome_iff] at h ⊢
    obtain ⟨w, hw⟩ := h
    refine ⟨w, List.mem_cons_of_mem _ ?_⟩
    refine (List.mem_eraseP_of_neg ?_).mpr hw
    simpa using hne

theorem mapLookup_remove_isSome {α : Type} (m : List (Key × α)) (k k' : Key)
    (h : (mapLookup (mapRemove m k') k).isSome) : (mapLookup m k).isSome := by
  rw [mapLookup_isSome_iff] at h ⊢
  obtain ⟨v, hv⟩ := h
  exact ⟨v, (List.eraseP_sublist m).subset hv⟩

theorem mapLookup_some_mem {α : Type} {m : List (Key × α)} {k : Key} {v : α}
    (h : mapLookup m k = some v) : (k, v) ∈ m := by
  unfold mapLookup at h
  obtain ⟨e, he, hev⟩ := Option.map_eq_some'.mp h
  have hk := List.find?_some he
  have hmem := List.mem_of_find?_eq_some he
  obtain ⟨k0, v0⟩ := e
  simp only at hev
  cases hev
  exact (beq_iff_eq.mp hk) ▸ hmem

theorem findIdx?_some_mem {k : Key} : ∀ (l : List Key) (s i : Nat),
    List.findIdx? (fun k' => k' == k) l s = some i → k ∈ l := by
  intro l
  induction l with
  | nil => intro s i h; simp [List.findIdx?] at h
  | cons a l ih =>
    intro s i h
    by_cases ha : a == k
    · simp [show a = k by simpa using ha]
    · rw [show List.findIdx? (fun k' => k' == k) (a :: l) s =
          List.findIdx? (fun k' => k' == k) l (s + 1) by simp [List.findIdx?, ha]] at h
      exact List.mem_cons_of_mem _ (ih _ _ h)

/-- Keys present in a fold of `cold_map.insert` stay present. -/
theorem foldlInsert_isSome {pl : List (Nat × Key)} {m : List (Key × Nat)} {k : Key}
    (h : (mapLookup m k).isSome ∨ ∃ p ∈ pl, p.2 = k) :
    (mapLookup (pl.foldl (fun m' ik => mapInsert m' ik.2 ik.1) m) k).isSome := by
  induction pl generalizing m with
  | nil =>
    rcases h with h | ⟨p, hp, _⟩
    · simpa using h
    · simp at hp
  | cons p pl ih =>
    simp only [List.foldl_cons]
    rcases h with h | ⟨q, hq, hqk⟩
    · exact ih (Or.inl (mapLookup_insert_isSome _ _ _ _ h))
    · rcases List.mem_cons.mp hq with rfl | hq'
      · refine ih (Or.inl ?_)
        rw [hqk, mapLookup_insert_self]; rfl
      · exact ih (Or.inr ⟨q, hq', hqk⟩)

/- ------------------------------------------------------------------
   TwoQPolicy structural lemmas.
   ------------------------------------------------------------------ -/

theorem twoqGet_keyToSize (st : TwoQPolicy) (k : Key) :
    ((st.get k).2).keyToSize = st.keyToSize := by
  unfold TwoQPolicy.get TwoQPolicy.updateColdIndices
  cases h : mapLookup st.coldMap k
  · cases h2 : st.hot.findIdx? (fun k' => k' == k) <;> simp
  · simp

theorem twoqGet_size (st : TwoQPolicy) (k : Key) : ((st.get k).2).size = st.size := by
  unfold TwoQPolicy.get TwoQPolicy.updateColdIndices
  cases h : mapLookup st.coldMap k
  · cases h2 : st.hot.findIdx? (fun k' => k' == k) <;> simp
  · simp

theorem twoqGet_capacity (st : TwoQPolicy) (k : Key) :
    ((st.get k).2).capacity = st.capacity := by
  unfold TwoQPolicy.get TwoQPolicy.updateColdIndices
  cases h : mapLookup st.coldMap k
  · cases h2 : st.hot.findIdx? (fun k' => k' == k) <;> simp
  · simp

theorem twoqGet_hit_hot {st : TwoQPolicy} {k : Key} {u : Unit} {st1 : TwoQPolicy}
    (h : st.get k = (some u, st1)) : ∃ t, st1.hot = k :: t := by
  unfold TwoQPolicy.get at h
  cases hc : mapLookup st.coldMap k with
  | some idx =>
    rw [hc] at h
    simp only [Prod.mk.injEq] at h
    obtain ⟨-, h2⟩ := h
    subst h2
    exact ⟨st.hot, by simp [TwoQPolicy.updateColdIndices]⟩
  | none =>
    rw [hc] at h
    cases hh : st.hot.findIdx? (fun k' => k' == k) with
    | some pos =>
      rw [hh] at h
      simp only [Prod.mk.injEq] at h
      obtain ⟨-, h2⟩ := h
      subst h2
      exact ⟨_, rfl⟩
    | none => rw [hh] at h; simp at h

theorem twoqGet_miss {st : TwoQPolicy} {k : Key} {st1 : TwoQPolicy}
    (h : st.get k = (none, st1)) :
    st1 = st ∧ mapLookup st.coldMap k = none ∧
      st.hot.findIdx? (fun k' => k' == k) = none := by
  unfold TwoQPolicy.get at h
  cases hc : mapLookup st.coldMap k with
  | some idx => rw [hc] at h; simp at h
  | none =>
    rw [hc] at h
    cases hh : st.hot.findIdx? (fun k' => k' == k) with
    | some pos => rw [hh] at h; simp at h
    | none =>
      rw [hh] at h
      simp only [Prod.mk.injEq] at h
      exact ⟨h.2.symm, rfl, rfl⟩

/-- A get hit guarantees a recorded size under `mapsCover`. -/
theorem twoqGet_hit_covered {st : TwoQPolicy} {k : Key} {u : Unit} {st1 : TwoQPolicy}
    (hcov : st.mapsCover) (h : st.get k = (some u, st1)) :
    (mapLookup st.keyToSize k).isSome := by
  unfold TwoQPolicy.get at h
  cases hc : mapLookup st.coldMap k with
  | some idx => exact hcov.1 _ (mapLookup_some_mem hc)
  | none =>
    rw [hc] at h
    cases hh : st.hot.findIdx? (fun k' => k' == k) with
    | some pos => exact hcov.2 k (findIdx?_some_mem _ _ _ hh)
    | none => rw [hh] at h; simp at h

/-- Behaviour of the cold phase of the 2Q eviction loop: `cold_map` and
`key_to_size` only lose bindings, and a failed loop means cold is
exhausted with the fit condition still false. -/
theorem twoqEvictCold_spec {cap s : Nat} (k : Key) :
    ∀ (rc : List Key) (cm : List (Key × Nat)) (sz : Nat) (m : List (Key × Nat)),
    ((mapLookup (twoqEvictCold cap s rc cm sz m).2.2.1 k).isSome →
        (mapLookup cm k).isSome) ∧
      ((mapLookup (twoqEvictCold cap s rc cm sz m).2.2.2.2 k).isSome →
        (mapLookup m k).isSome) ∧
      ((twoqEvictCold cap s rc cm sz m).1 = false →
        (twoqEvictCold cap s rc cm sz m).2.1 = [] ∧
          ¬((twoqEvictCold cap s rc cm sz m).2.2.2.1 + s ≤ cap)) := by
  intro rc
  induction rc with
  | nil =>
    intro cm sz m
    unfold twoqEvictCold
    by_cases h : sz + s ≤ cap <;> simp [h]
  | cons k0 rest ih =>
    intro cm sz m
    unfold twoqEvictCold
    by_cases h : sz + s ≤ cap
    · simp [h]
    · simp only [h, if_false]
      cases hl : mapLookup m k0 with
      | some szk =>
        obtain ⟨ih1, ih2, ih3⟩ := ih (mapRemove cm k0) (sz - szk) (mapRemove m k0)
        exact ⟨fun hs => mapLookup_remove_isSome _ _ _ (ih1 hs),
          fun hs => mapLookup_remove_isSome _ _ _ (ih2 hs), ih3⟩
      | none =>
        obtain ⟨ih1, ih2, ih3⟩ := ih (mapRemove cm k0) sz m
        exact ⟨fun hs => mapLookup_remove_isSome _ _ _ (ih1 hs), ih2, ih3⟩

/-- Behaviour of the full 2Q eviction loop (hot phase, then cold phase). -/
theorem twoqEvictHot_spec {cap s : Nat} (k : Key) :
    ∀ (rh rc : List Key) (cm : List (Key × Nat)) (sz : Nat) (m : List (Key × Nat)),
    ((mapLookup (twoqEvictHot cap s rh rc cm sz m).2.2.2.1 k).isSome →
        (mapLookup cm k).isSome) ∧
      ((mapLookup (twoqEvictHot cap s rh rc cm sz m).2.2.2.2.2 k).isSome →
        (mapLookup m k).isSome) ∧
      ((twoqEvictHot cap s rh rc cm sz m).1 = false →
        (twoqEvictHot cap s rh rc cm sz m).2.1 = [] ∧
          (twoqEvictHot cap s rh rc cm sz m).2.2.1 = [] ∧
          ¬((twoqEvictHot cap s rh rc cm sz m).2.2.2.2.1 + s ≤ cap)) := by
  intro rh
  induction rh with
  | nil =>
    intro rc cm sz m
    unfold twoqEvictHot
    by_cases h : sz + s ≤ cap
    · simp [h]
    · simp only [h, if_false]
      obtain ⟨c1, c2, c3⟩ := twoqEvictCold_spec k rc cm sz m
      exact ⟨c1, c2, fun hf => ⟨trivial, (c3 hf).1, (c3 hf).2⟩⟩
  | cons k0 rest ih =>
    intro rc cm sz m
    unfold twoqEvictHot
    by_cases h : sz + s ≤ cap
    · simp [h]
    · simp only [h, if_false]
      cases hl : mapLookup m k0 with
      | some szk =>
        obtain ⟨ih1, ih2, ih3⟩ := ih rc cm (sz - szk) (mapRemove m k0)
        exact ⟨ih1, fun hs => mapLookup_remove_isSome _ _ _ (ih2 hs), ih3⟩
      | none => exact ih rc cm sz m

/- ------------------------------------------------------------------
   LfuPolicy structural lemmas.
   ------------------------------------------------------------------ -/

theorem lfuGet_size (st : LfuPolicy) (k : Key) : ((st.get k).2).size = st.size := by
  unfold LfuPolicy.get
  cases h : mapLookup st.keyToFreqSize k <;> simp

theorem lfuGet_capacity (st : LfuPolicy) (k : Key) :
    ((st.get k).2).capacity = st.capacity := by
  unfold LfuPolicy.get
  cases h : mapLookup st.keyToFreqSize k <;> simp

theorem lfuGet_resident (st : LfuPolicy) (k : Key)
    (h : (mapLookup st.keyToFreqSize k).isSome) :
    (mapLookup ((st.get k).2).keyToFreqSize k).isSome := by
  unfold LfuPolicy.get
  obtain ⟨fs, hfs⟩ := Option.isSome_iff_exists.mp h
  rw [hfs]
  simpa using (mapLookup_insert_self st.keyToFreqSize k (fs.1 + 1, fs.2)) ▸ rfl

theorem lfuPut_capacity (st : LfuPolicy) (k : Key) (s : Nat) :
    (st.put k s).capacity = st.capacity := by
  unfold LfuPolicy.put
  by_cases hg : st.capacity = 0 ∨ st.capacity < s
  · simp [hg]
  · by_cases hr : (mapLookup st.keyToFreqSize k).isSome
    · simp [hg, hr, lfuGet_capacity]
    · simp [hg, hr]

theorem lfuPut_resident (st : LfuPolicy) (k : Key) (s : Nat)
    (hg : ¬(st.capacity = 0 ∨ st.capacity < s))
    (hr : (mapLookup st.keyToFreqSize k).isSome) : st.put k s = (st.get k).2 := by
  unfold LfuPolicy.put
  simp [hg, hr]

/-- After a non-no-op `LfuPolicy::put`, the key is resident. -/
theorem lfuPut_key_resident (st : LfuPolicy) (k : Key) (s : Nat)
    (hg : ¬(st.capacity = 0 ∨ st.capacity < s)) :
    (mapLookup ((st.put k s).keyToFreqSize) k).isSome := by
  unfold LfuPolicy.put
  by_cases hr : (mapLookup st.keyToFreqSize k).isSome
  · simpa [hg, hr] using lfuGet_resident st k hr
  · simp only [hg, if_false, hr]
    simpa using (mapLookup_insert_self _ k (1, s)) ▸ rfl

/-- A second `LfuPolicy::put` of the same key and size leaves the occupied
size unchanged. -/
theorem lfu_double_put_size (st : LfuPolicy) (k : Key) (s : Nat) :
    ((st.put k s).put k s).size = (st.put k s).size := by
  by_cases hg : st.capacity = 0 ∨ st.capacity < s
  · have h1 : st.put k s = st := by unfold LfuPolicy.put; simp [hg]
    rw [h1, h1]
  · have hg' : ¬((st.put k s).capacity = 0 ∨ (st.put k s).capacity < s) := by
      rw [lfuPut_capacity]; exact hg
    rw [lfuPut_resident _ _ _ hg' (lfuPut_key_resident st k s hg), lfuGet_size]

theorem mapLookup_cons {α : Type} (e : Key × α) (m : List (Key × α)) (k : Key) :
    mapLookup (e :: m) k = if (e.1 == k) = true then some e.2 else mapLookup m k := by
  by_cases h : (e.1 == k) = true
  · rw [if_pos h]
    unfold mapLookup
    rw [List.find?_cons_of_pos (p := fun x : Key × α => x.1 == k) _ h]
    rfl
  · rw [if_neg h]
    unfold mapLookup
    rw [List.find?_cons_of_neg (p := fun x : Key × α => x.1 == k) _ h]

theorem mapLookup_remove_ne {α : Type} (m : List (Key × α)) (k k' : Key) (hne : k ≠ k') :
    mapLookup (mapRemove m k') k = mapLookup m k := by
  induction m with
  | nil => rfl
  | cons e m ih =>
    unfold mapRemove
    rw [List.eraseP_cons]
    by_cases he : (e.1 == k') = true
    · simp only [he, cond_true]
      rw [mapLookup_cons]
      have hne2 : ¬(e.1 == k) = true := by
        rw [beq_iff_eq] at he ⊢
        rw [he]
        exact fun hkk => hne hkk.symm
      rw [if_neg hne2]
    · simp only [Bool.not_eq_true] at he
      simp only [he, cond_false]
      rw [mapLookup_cons, mapLookup_cons]
      by_cases hk : (e.1 == k) = true
      · rw [if_pos hk, if_pos hk]
      · rw [if_neg hk, if_neg hk]
        exact ih

theorem findIdx?_cons_self (k : Key) (t : List Key) :
    List.findIdx? (fun k' => k' == k) (k :: t) = some 0 := by
  simp [List.findIdx?]

theorem enum_cons_head_mem (k : Key) (l : List Key) : ((0 : Nat), k) ∈ (k :: l).enum := by
  simp [List.enum_cons]

theorem twoqEvictHot_stuck {cap s : Nat} (cm : List (Key × Nat)) (sz : Nat)
    (m : List (Key × Nat)) (h : ¬(sz + s ≤ cap)) :
    twoqEvictHot cap s [] [] cm sz m = (false, [], [], cm, sz, m) := by
  unfold twoqEvictHot twoqEvictCold
  simp [h]

/-- A `putEvict` on an already-drained state that still does not fit is a
no-op that reports failure. -/
theorem twoqPutEvict_of_empty (st2 : TwoQPolicy) (s : Nat) (hh : st2.hot = [])
    (hc : st2.cold = []) (hfit : ¬(st2.size + s ≤ st2.capacity)) :
    (st2.putEvict s).1 = false ∧ ((st2.putEvict s).2).size = st2.size := by
  unfold TwoQPolicy.putEvict
  rw [hh, hc]
  simp only [List.reverse_nil]
  rw [twoqEvictHot_stuck st2.coldMap st2.size st2.keyToSize hfit]
  simp

/-- A `TwoQPolicy::put` on a key the engine will hit, whose recorded size
already equals `s ≤ size`, keeps the occupied size unchanged. -/
theorem twoq_put_same_size (st : TwoQPolicy) (k : Key) (s : Nat)
    (ha : (mapLookup st.coldMap k).isSome ∨ ∃ t, st.hot = k :: t)
    (hb : mapLookup st.keyToSize k = some s)
    (hc : s ≤ st.size) :
    (st.put k s).size = st.size := by
  rcases hget : st.get k with ⟨ov, st1⟩
  cases ov with
  | none =>
    obtain ⟨h1, h2, h3⟩ := twoqGet_miss hget
    rcases ha with hcold | ⟨t, ht⟩
    · rw [h2] at hcold; simp at hcold
    · rw [ht, findIdx?_cons_self] at h3; simp at h3
  | some u =>
    have hst1 : st1 = (st.get k).2 := by rw [hget]
    have hk : mapLookup st1.keyToSize k = some s := by
      rw [hst1, twoqGet_keyToSize]; exact hb
    have hsz : st1.size = st.size := by rw [hst1, twoqGet_size]
    have hput : st.put k s =
        { st1 with keyToSize := mapInsert st1.keyToSize k s, size := st1.size - s + s } := by
      unfold TwoQPolicy.put
      simp only [hget, hk]
    rw [hput]
    simp only []
    omega

theorem twoqPutEvict_capacity (st1 : TwoQPolicy) (s : Nat) :
    ((st1.putEvict s).2).capacity = st1.capacity := rfl

/-- A failed eviction phase leaves both queues drained, the fit condition
still false, and only ever removed `cold_map`/`key_to_size` bindings. -/
theorem twoqPutEvict_false (st1 : TwoQPolicy) (s : Nat) (hf : (st1.putEvict s).1 = false) :
    ((st1.putEvict s).2).hot = [] ∧ ((st1.putEvict s).2).cold = [] ∧
      ¬(((st1.putEvict s).2).size + s ≤ st1.capacity) ∧
      (∀ k, (mapLookup ((st1.putEvict s).2).coldMap k).isSome →
        (mapLookup st1.coldMap k).isSome) ∧
      (∀ k, (mapLookup ((st1.putEvict s).2).keyToSize k).isSome →
        (mapLookup st1.keyToSize k).isSome) := by
  unfold TwoQPolicy.putEvict at hf ⊢
  refine ⟨?_, ?_, ?_, ?_, ?_⟩
  · have h3 := (twoqEvictHot_spec 0 st1.hot.reverse st1.cold.reverse
      st1.coldMap st1.size st1.keyToSize).2.2 hf
    simp [h3.1]
  · have h3 := (twoqEvictHot_spec 0 st1.hot.reverse st1.cold.reverse
      st1.coldMap st1.size st1.keyToSize).2.2 hf
    simp [h3.2.1]
  · exact ((twoqEvictHot_spec 0 st1.hot.reverse st1.cold.reverse
      st1.coldMap st1.size st1.keyToSize).2.2 hf).2.2
  · intro k
    exact (twoqEvictHot_spec k st1.hot.reverse st1.cold.reverse
      st1.coldMap st1.size st1.keyToSize).1
  · intro k
    exact (twoqEvictHot_spec k st1.hot.reverse st1.cold.reverse
      st1.coldMap st1.size st1.keyToSize).2.1

theorem twoqPutAdmit_size (st2 : TwoQPolicy) (k : Key) (s : Nat) :
    (st2.putAdmit k s).size = st2.size + s := by
  unfold TwoQPolicy.putAdmit TwoQPolicy.updateColdIndices
  by_cases hsplit : st2.capacity / 2 < st2.cold.length + 1
  · simp only [List.length_cons, hsplit, if_true]
    cases hl : (k :: st2.cold).getLast? <;> simp
  · simp [hsplit]

theorem twoqPutAdmit_keyToSize (st2 : TwoQPolicy) (k : Key) (s : Nat) :
    mapLookup (st2.putAdmit k s).keyToSize k = some s := by
  unfold TwoQPolicy.putAdmit TwoQPolicy.updateColdIndices
  by_cases hsplit : st2.capacity / 2 < st2.cold.length + 1
  · simp only [List.length_cons, hsplit, if_true]
    cases hl : (k :: st2.cold).getLast? <;> simp [mapLookup_insert_self]
  · simp [hsplit, mapLookup_insert_self]

/-- After admission the key is reachable by `get`: it is in `cold_map`, or
at the head of `hot` when the migration step moved it there. -/
theorem twoqPutAdmit_hit (st2 : TwoQPolicy) (k : Key) (s : Nat) :
    (mapLookup (st2.putAdmit k s).coldMap k).isSome ∨
      ∃ t, (st2.putAdmit k s).hot = k :: t := by
  unfold TwoQPolicy.putAdmit TwoQPolicy.updateColdIndices
  have hbase : (mapLookup ((k :: st2.cold).enum.foldl
      (fun m' ik => mapInsert m' ik.2 ik.1) st2.coldMap) k).isSome :=
    foldlInsert_isSome (Or.inr ⟨(0, k), enum_cons_head_mem k st2.cold, rfl⟩)
  by_cases hsplit : st2.capacity / 2 < st2.cold.length + 1
  · simp only [List.length_cons, hsplit, if_true]
    cases hl : (k :: st2.cold).getLast? with
    | none => exact Or.inl hbase
    | some old =>
      rcases eq_or_ne old k with rfl | hne
      · exact Or.inr ⟨_, rfl⟩
      · refine Or.inl ?_
        have := mapLookup_remove_ne ((k :: st2.cold).enum.foldl
          (fun m' ik => mapInsert m' ik.2 ik.1) st2.coldMap) k old (Ne.symm hne)
        simpa [this] using hbase
  · simp only [List.length_cons, hsplit, if_false]
    exact Or.inl hbase

/-- A second `TwoQPolicy::put` of the same key and size leaves the occupied
size unchanged, for any state whose `cold_map`/`hot` entries all have
recorded sizes (true from construction onwards). -/
theorem twoq_double_put_size (st : TwoQPolicy) (k : Key) (s : Nat) (hcov : st.mapsCover) :
    ((st.put k s).put k s).size = (st.put k s).size := by
  rcases hget : st.get k with ⟨ov, st1⟩
  cases ov with
  | some u =>
    -- resident-key update path
    have hcovk := twoqGet_hit_covered hcov hget
    obtain ⟨old, hold⟩ := Option.isSome_iff_exists.mp hcovk
    have hst1 : st1 = (st.get k).2 := by rw [hget]
    have hk1 : mapLookup st1.keyToSize k = some old := by
      rw [hst1, twoqGet_keyToSize]; exact hold
    obtain ⟨t, ht⟩ := twoqGet_hit_hot hget
    have hput : st.put k s =
        { st1 with keyToSize := mapInsert st1.keyToSize k s, size := st1.size - old + s } := by
      unfold TwoQPolicy.put
      simp only [hget, hk1]
    rw [hput]
    refine twoq_put_same_size _ k s (Or.inr ⟨t, ht⟩) (mapLookup_insert_self _ _ _) ?_
    simp only []
    omega
  | none =>
    obtain ⟨h1, h2, _⟩ := twoqGet_miss hget
    rw [h1] at hget
    have hput : st.put k s =
        (if (st.putEvict s).1 then ((st.putEvict s).2).putAdmit k s
         else (st.putEvict s).2) := by
      unfold TwoQPolicy.put
      simp only [hget]
    by_cases hflag : (st.putEvict s).1
    · rw [hput, if_pos hflag]
      refine twoq_put_same_size _ k s (twoqPutAdmit_hit _ k s) (twoqPutAdmit_keyToSize _ k s) ?_
      rw [twoqPutAdmit_size]
      omega
    · have hfl : (st.putEvict s).1 = false := by simpa using hflag
      rw [hput, if_neg hflag]
      obtain ⟨hh, hc, hfit, hcmono, _⟩ := twoqPutEvict_false st s hfl
      have hcold2 : mapLookup ((st.putEvict s).2).coldMap k = none := by
        cases hcm : mapLookup ((st.putEvict s).2).coldMap k with
        | none => rfl
        | some v =>
          have hsome := hcmono k (by rw [hcm]; rfl)
          rw [h2] at hsome
          simp at hsome
      have hmiss2 : ((st.putEvict s).2).get k = (none, (st.putEvict s).2) := by
        unfold TwoQPolicy.get
        rw [hcold2, hh]
        simp [List.findIdx?]
      have hput2 : ((st.putEvict s).2).put k s =
          (if (((st.putEvict s).2).putEvict s).1
            then ((((st.putEvict s).2).putEvict s).2).putAdmit k s
            else (((st.putEvict s).2).putEvict s).2) := by
        unfold TwoQPolicy.put
        simp only [hmiss2]
      have hempty := twoqPutEvict_of_empty ((st.putEvict s).2) s hh hc
        (by rw [twoqPutEvict_capacity]; exact hfit)
      rw [hput2, if_neg (by rw [hempty.1]; exact Bool.false_ne_true), hempty.2]

/-- C6 (amended): for LFU and 2Q, calling `put` twice in succession with the
same key and size leaves the occupied size unchanged after the second call
(for 2Q: in every state whose `cold_map`/`hot` keys all carry recorded
sizes, which holds from construction on).  For LRU and FIFO the claim
fails: the size is counted again (see the counterexample). -/
theorem C6_lfu_twoq_double_put :
    (∀ (st : LfuPolicy) (k : Key) (s : Nat),
        ((st.put k s).put k s).size = (st.put k s).size) ∧
      (∀ (st : TwoQPolicy) (k : Key) (s : Nat), st.mapsCover →
        ((st.put k s).put k s).size = (st.put k s).size) :=
  ⟨lfu_double_put_size, twoq_double_put_size⟩

/-- C6 witness: concrete double puts on fresh LFU and 2Q engines. -/
theorem C6_witness :
    ((((LfuPolicy.new 10).put 1 3).put 1 3).size = ((LfuPolicy.new 10).put 1 3).size) ∧
      (TwoQPolicy.new 10).mapsCover ∧
      ((((TwoQPolicy.new 10).put 1 3).put 1 3).size = ((TwoQPolicy.new 10).put 1 3).size) :=
  ⟨C6_lfu_twoq_double_put.1 (LfuPolicy.new 10) 1 3, by decide,
    C6_lfu_twoq_double_put.2 (TwoQPolicy.new 10) 1 3 (by decide)⟩

/- ------------------------------------------------------------------
   C4: behaviour of `put` when no eviction can free enough room.
   ------------------------------------------------------------------ -/

theorem twoqEvictCold_oversize {cap s : Nat} (hs : cap < s) :
    ∀ (rc : List Key) (cm : List (Key × Nat)) (sz : Nat) (m : List (Key × Nat)),
    (twoqEvictCold cap s rc cm sz m).1 = false := by
  intro rc
  induction rc with
  | nil =>
    intro cm sz m
    unfold twoqEvictCold
    rw [if_neg (by omega)]
  | cons k0 rest ih =>
    intro cm sz m
    unfold twoqEvictCold
    rw [if_neg (by omega)]
    cases hl : mapLookup m k0 with
    | some szk => simp only [hl]; exact ih _ _ _
    | none => simp only [hl]; exact ih _ _ _

theorem twoqEvictHot_oversize {cap s : Nat} (hs : cap < s) :
    ∀ (rh rc : List Key) (cm : List (Key × Nat)) (sz : Nat) (m : List (Key × Nat)),
    (twoqEvictHot cap s rh rc cm sz m).1 = false := by
  intro rh
  induction rh with
  | nil =>
    intro rc cm sz m
    unfold twoqEvictHot
    rw [if_neg (by omega)]
    simp only []
    exact twoqEvictCold_oversize hs _ _ _ _
  | cons k0 rest ih =>
    intro rc cm sz m
    unfold twoqEvictHot
    rw [if_neg (by omega)]
    cases hl : mapLookup m k0 with
    | some szk => simp only [hl]; exact ih _ _ _ _
    | none => simp only [hl]; exact ih _ _ _ _

/-- Whatever branch `LruCache::put` takes, the key ends up resident. -/
theorem lcContains_lcPut (icap : Nat) (l : List (Key × Nat)) (k : Key) (v : Nat) :
    lcContains (lcPut icap l k v) k = true := by
  unfold lcPut
  by_cases h1 : lcContains l k
  · rw [if_pos h1]
    unfold lcContains
    simp
  · rw [if_neg h1]
    by_cases h2 : (l.length == icap) = true
    · rw [if_pos h2]
      unfold lcContains
      simp
    · rw [if_neg h2]
      unfold lcContains
      simp

/-- C4 (amended): when no eviction can free enough room, no policy crashes,
but only LFU and 2Q skip the admission.  LFU returns with the state fully
unchanged whenever the capacity is 0 or the item exceeds it; 2Q drains both
queues and returns without admitting a non-resident oversized key; LRU and
FIFO admit the key unconditionally (so for an oversized item they do not
skip — see the counterexample). -/
theorem C4_oversize_put_behavior :
    (∀ (st : LfuPolicy) (k : Key) (s : Nat),
        (st.capacity = 0 ∨ st.capacity < s) → st.put k s = st) ∧
      (∀ (st : TwoQPolicy) (k : Key) (s : Nat),
        mapLookup st.coldMap k = none →
        st.hot.findIdx? (fun k' => k' == k) = none →
        mapLookup st.keyToSize k = none →
        st.capacity < s →
        mapLookup ((st.put k s).keyToSize) k = none ∧
          (st.put k s).hot = [] ∧ (st.put k s).cold = []) ∧
      (∀ (st : LruPolicy) (k : Key) (s : Nat),
        lcContains ((st.put k s).cache) k = true) ∧
      (∀ (st : FifoPolicy) (k : Key) (s : Nat),
        mapLookup ((st.put k s).cache) k = some s) := by
  refine ⟨?_, ?_, ?_, ?_⟩
  · intro st k s h
    unfold LfuPolicy.put
    simp [h]
  · intro st k s h1 h2 h3 h4
    have hget : st.get k = (none, st) := by
      unfold TwoQPolicy.get
      rw [h1, h2]
    have hput : st.put k s =
        (if (st.putEvict s).1 then ((st.putEvict s).2).putAdmit k s
         else (st.putEvict s).2) := by
      unfold TwoQPolicy.put
      simp only [hget]
    have hflag : (st.putEvict s).1 = false := by
      unfold TwoQPolicy.putEvict
      exact twoqEvictHot_oversize h4 _ _ _ _ _
    obtain ⟨hh, hc, _, _, hkmono⟩ := twoqPutEvict_false st s hflag
    rw [hput, if_neg (by rw [hflag]; exact Bool.false_ne_true)]
    refine ⟨?_, hh, hc⟩
    cases hl : mapLookup ((st.putEvict s).2).keyToSize k with
    | none => rfl
    | some v =>
      have := hkmono k (by rw [hl]; rfl)
      rw [h3] at this
      simp at this
  · intro st k s
    exact lcContains_lcPut _ _ _ _
  · intro st k s
    unfold FifoPolicy.put
    simp only []
    exact mapLookup_insert_self _ _ _

/- ------------------------------------------------------------------
   Accounting lemmas for association lists and the LFU buckets.
   ------------------------------------------------------------------ -/

theorem lfuTotal_remove {m : List (Key × (Nat × Nat))} {k : Key} {w : Nat × Nat}
    (h : mapLookup m k = some w) : lfuTotal (mapRemove m k) + w.2 = lfuTotal m := by
  induction m with
  | nil => simp [mapLookup] at h
  | cons e m ih =>
    rw [mapLookup_cons] at h
    unfold mapRemove
    rw [List.eraseP_cons]
    by_cases hk : (e.1 == k) = true
    · rw [if_pos hk] at h
      simp only [hk, cond_true]
      cases h
      simp [lfuTotal, Nat.add_comm]
    · rw [if_neg hk] at h
      simp only [hk, cond_false]
      have h2 := ih h
      simp only [lfuTotal, mapRemove, List.map_cons, List.sum_cons] at h2 ⊢
      omega

theorem mapRemove_of_none {α : Type} {m : List (Key × α)} {k : Key}
    (h : mapLookup m k = none) : mapRemove m k = m := by
  refine List.eraseP_of_forall_not ?_
  intro e he
  simp only [Bool.not_eq_true]
  by_cases hk : (e.1 == k) = true
  · exfalso
    have hk' := beq_iff_eq.mp hk
    have hsome : (mapLookup m k).isSome := by
      rw [mapLookup_isSome_iff]
      exact ⟨e.2, by rw [← hk']; exact he⟩
    rw [h] at hsome
    simp at hsome
  · simpa using hk

theorem mem_mapRemove {α : Type} {m : List (Key × α)} {k : Key} {e : Key × α}
    (h : e ∈ mapRemove m k) : e ∈ m := (List.eraseP_sublist m).subset h

theorem keys_mapRemove_nodup {α : Type} {m : List (Key × α)} (k : Key)
    (h : (mapKeys m).Nodup) : (mapKeys (mapRemove m k)).Nodup :=
  h.sublist (((List.eraseP_sublist m).map Prod.fst))

theorem not_mem_keys_mapRemove {α : Type} {m : List (Key × α)} {k : Key}
    (h : (mapKeys m).Nodup) : k ∉ mapKeys (mapRemove m k) := by
  induction m with
  | nil => simp [mapRemove, mapKeys]
  | cons e m ih =>
    unfold mapRemove
    rw [List.eraseP_cons]
    simp only [mapKeys, List.map_cons, List.nodup_cons] at h
    by_cases hk : (e.1 == k) = true
    · simp only [hk, cond_true]
      rw [beq_iff_eq] at hk
      rw [← hk]
      exact fun hmem => h.1 hmem
    · simp only [hk, cond_false]
      simp only [mapKeys, List.map_cons, List.mem_cons]
      rintro (hek | hmem)
      · rw [beq_iff_eq] at hk
        exact hk hek.symm
      · exact ih h.2 hmem

theorem mapLookup_none_not_mem {α : Type} {m : List (Key × α)} {k : Key}
    (h : mapLookup m k = none) (e : Key × α) (he : e ∈ m) : e.1 ≠ k := by
  intro hek
  have hsome : (mapLookup m k).isSome := by
    rw [mapLookup_isSome_iff]
    exact ⟨e.2, by rw [← hek]; exact he⟩
  rw [h] at hsome
  simp at hsome

theorem btreePush_self (f : Nat) (k : Key) (b : List (Nat × List Key)) :
    bucketsContain (btreePush f k b) k := by
  induction b with
  | nil => exact ⟨(f, [k]), by simp [btreePush]⟩
  | cons e b ih =>
    obtain ⟨g, ks⟩ := e
    unfold btreePush
    by_cases h1 : f < g
    · rw [if_pos h1]
      exact ⟨(f, [k]), by simp⟩
    · rw [if_neg h1]
      by_cases h2 : f = g
      · rw [if_pos h2]
        exact ⟨(g, ks ++ [k]), by simp⟩
      · rw [if_neg h2]
        obtain ⟨e', he', hk'⟩ := ih
        exact ⟨e', List.mem_cons_of_mem _ he', hk'⟩

theorem btreePush_mono (f : Nat) (k k' : Key) (b : List (Nat × List Key))
    (h : bucketsContain b k') : bucketsContain (btreePush f k b) k' := by
  induction b with
  | nil => obtain ⟨e, he, -⟩ := h; simp at he
  | cons e b ih =>
    obtain ⟨g, ks⟩ := e
    unfold btreePush
    by_cases h1 : f < g
    · rw [if_pos h1]
      obtain ⟨e', he', hk'⟩ := h
      exact ⟨e', List.mem_cons_of_mem _ he', hk'⟩
    · rw [if_neg h1]
      by_cases h2 : f = g
      · rw [if_pos h2]
        obtain ⟨e', he', hk'⟩ := h
        rcases List.mem_cons.mp he' with rfl | htail
        · exact ⟨(g, ks ++ [k]), by simp, by simp only at hk'; simp [hk']⟩
        · exact ⟨e', List.mem_cons_of_mem _ htail, hk'⟩
      · rw [if_neg h2]
        obtain ⟨e', he', hk'⟩ := h
        rcases List.mem_cons.mp he' with rfl | htail
        · exact ⟨(g, ks), List.mem_cons_self _ _, hk'⟩
        · obtain ⟨e'', he'', hk''⟩ := ih ⟨e', htail, hk'⟩
          exact ⟨e'', List.mem_cons_of_mem _ he'', hk''⟩

theorem bucketRetain_mem_ne (f : Nat) (k k' : Key) (b : List (Nat × List Key))
    (hne : k' ≠ k) (h : bucketsContain b k') : bucketsContain (bucketRetain f k b) k' := by
  induction b with
  | nil => obtain ⟨e, he, -⟩ := h; simp at he
  | cons e b ih =>
    obtain ⟨g, ks⟩ := e
    unfold bucketRetain
    by_cases h1 : g = f
    · rw [if_pos h1]
      obtain ⟨e', he', hk'⟩ := h
      rcases List.mem_cons.mp he' with rfl | htail
      · simp only at hk'
        have hk2 : k' ∈ ks.filter (fun x => x ≠ k) :=
          List.mem_filter.mpr ⟨hk', by simp [hne]⟩
        have hne2 : ¬(ks.filter (fun x => x ≠ k)).isEmpty := by
          rw [List.isEmpty_iff]
          intro hnil
          rw [hnil] at hk2
          simp at hk2
        rw [if_neg hne2]
        exact ⟨(g, ks.filter (fun x => x ≠ k)), List.mem_cons_self _ _, hk2⟩
      · by_cases hem : (ks.filter (fun x => x ≠ k)).isEmpty
        · rw [if_pos hem]
          exact ⟨e', htail, hk'⟩
        · rw [if_neg hem]
          exact ⟨e', List.mem_cons_of_mem _ htail, hk'⟩
    · rw [if_neg h1]
      obtain ⟨e', he', hk'⟩ := h
      rcases List.mem_cons.mp he' with rfl | htail
      · exact ⟨(g, ks), List.mem_cons_self _ _, hk'⟩
      · obtain ⟨e'', he'', hk''⟩ := ih ⟨e', htail, hk'⟩
        exact ⟨e'', List.mem_cons_of_mem _ he'', hk''⟩

theorem lfuDrain_cons (k0 : Key) (ks : List Key) (size : Nat)
    (m : List (Key × (Nat × Nat))) :
    lfuDrain (k0 :: ks) size m =
      match mapLookup m k0 with
      | some fs => lfuDrain ks (size - fs.2) (mapRemove m k0)
      | none => lfuDrain ks size m := by
  unfold lfuDrain
  rw [List.foldl_cons]
  cases h : mapLookup m k0 <;> simp [h]

/-- Draining a bucket keeps the size accurate, keeps keys unique, and
removes every binding whose key is in the drained list. -/
theorem lfuDrain_spec : ∀ (ks : List Key) (size : Nat) (m : List (Key × (Nat × Nat))),
    (mapKeys m).Nodup → size = lfuTotal m →
    (lfuDrain ks size m).1 = lfuTotal (lfuDrain ks size m).2 ∧
      (mapKeys (lfuDrain ks size m).2).Nodup ∧
      (∀ e ∈ (lfuDrain ks size m).2, e ∈ m ∧ e.1 ∉ ks) := by
  intro ks
  induction ks with
  | nil =>
    intro size m hnd hsz
    exact ⟨hsz, hnd, fun e he => ⟨he, by simp⟩⟩
  | cons k0 ks ih =>
    intro size m hnd hsz
    rw [lfuDrain_cons]
    cases h0 : mapLookup m k0 with
    | some fs =>
      have hsub := lfuTotal_remove h0
      have h1 := ih (size - fs.2) (mapRemove m k0) (keys_mapRemove_nodup _ hnd) (by omega)
      refine ⟨h1.1, h1.2.1, ?_⟩
      intro e he
      obtain ⟨hem, hnin⟩ := h1.2.2 e he
      refine ⟨mem_mapRemove hem, ?_⟩
      simp only [List.mem_cons]
      rintro (hek | hks)
      · exact not_mem_keys_mapRemove hnd (hek ▸ List.mem_map_of_mem Prod.fst hem)
      · exact hnin hks
    | none =>
      have h1 := ih size m hnd hsz
      refine ⟨h1.1, h1.2.1, ?_⟩
      intro e he
      obtain ⟨hem, hnin⟩ := h1.2.2 e he
      refine ⟨hem, ?_⟩
      simp only [List.mem_cons]
      rintro (hek | hks)
      · exact mapLookup_none_not_mem h0 e hem hek
      · exact hnin hks

/-- The LFU eviction loop keeps the accounting accurate and exits either
with room for the new item or with every bucket drained. -/
theorem lfuEvictLoop_spec (cap s : Nat) : ∀ (b : List (Nat × List Key)) (size : Nat)
    (m : List (Key × (Nat × Nat))),
    (mapKeys m).Nodup → size = lfuTotal m → (∀ e ∈ m, bucketsContain b e.1) →
    (lfuEvictLoop cap s b size m).2.1 = lfuTotal (lfuEvictLoop cap s b size m).2.2 ∧
      (mapKeys (lfuEvictLoop cap s b size m).2.2).Nodup ∧
      (∀ e ∈ (lfuEvictLoop cap s b size m).2.2, e ∈ m) ∧
      (∀ e ∈ (lfuEvictLoop cap s b size m).2.2,
        bucketsContain (lfuEvictLoop cap s b size m).1 e.1) ∧
      ((lfuEvictLoop cap s b size m).2.1 + s ≤ cap ∨ (lfuEvictLoop cap s b size m).1 = []) := by
  intro b
  induction b with
  | nil =>
    intro size m hnd hsz hmem
    unfold lfuEvictLoop
    by_cases hfit : size + s ≤ cap
    · rw [if_pos hfit]
      exact ⟨hsz, hnd, fun e he => he, hmem, Or.inl hfit⟩
    · rw [if_neg hfit]
      exact ⟨hsz, hnd, fun e he => he, hmem, Or.inr rfl⟩
  | cons fb b ih =>
    intro size m hnd hsz hmem
    obtain ⟨f, ks⟩ := fb
    unfold lfuEvictLoop
    by_cases hfit : size + s ≤ cap
    · rw [if_pos hfit]
      exact ⟨hsz, hnd, fun e he => he, hmem, Or.inl hfit⟩
    · rw [if_neg hfit]
      obtain ⟨d1, d2, d3⟩ := lfuDrain_spec ks size m hnd hsz
      have hmem1 : ∀ e ∈ (lfuDrain ks size m).2, bucketsContain b e.1 := by
        intro e he
        obtain ⟨hem, hnks⟩ := d3 e he
        obtain ⟨be, hbe, hkin⟩ := hmem e hem
        rcases List.mem_cons.mp hbe with rfl | htail
        · exact absurd hkin hnks
        · exact ⟨be, htail, hkin⟩
      have h1 := ih (lfuDrain ks size m).1 (lfuDrain ks size m).2 d2 d1 hmem1
      exact ⟨h1.1, h1.2.1, fun e he => (d3 e (h1.2.2.1 e he)).1, h1.2.2.2⟩

theorem lfuGet_inv {st : LfuPolicy} (h : LfuInv st) (k : Key) : LfuInv (st.get k).2 := by
  unfold LfuPolicy.get
  cases hl : mapLookup st.keyToFreqSize k with
  | none => simpa using h
  | some fs =>
    simp only []
    obtain ⟨hsz, hnd, hmem, hcap⟩ := h
    have hrem := lfuTotal_remove hl
    refine ⟨?_, ?_, ?_, hcap⟩
    · show st.size = lfuTotal (mapInsert st.keyToFreqSize k (fs.1 + 1, fs.2))
      simp only [mapInsert, lfuTotal, List.map_cons, List.sum_cons]
      simp only [lfuTotal, mapRemove] at hrem
      simp only [lfuTotal] at hsz
      omega
    · show (mapKeys (mapInsert st.keyToFreqSize k (fs.1 + 1, fs.2))).Nodup
      simp only [mapInsert, mapKeys, List.map_cons, List.nodup_cons]
      exact ⟨not_mem_keys_mapRemove hnd, keys_mapRemove_nodup _ hnd⟩
    · intro e he
      rcases List.mem_cons.mp he with rfl | htail
      · exact btreePush_self _ _ _
      · have hem := mem_mapRemove htail
        have hb := hmem e hem
        by_cases hek : e.1 = k
        · rw [hek]
          exact btreePush_self _ _ _
        · exact btreePush_mono _ _ _ _ (bucketRetain_mem_ne _ _ _ _ hek hb)

theorem lfuPut_inv {st : LfuPolicy} (h : LfuInv st) (k : Key) (s : Nat) :
    LfuInv (st.put k s) := by
  unfold LfuPolicy.put
  by_cases hg : st.capacity = 0 ∨ st.capacity < s
  · simpa [hg] using h
  · by_cases hr : (mapLookup st.keyToFreqSize k).isSome
    · simpa [hg, hr] using lfuGet_inv h k
    · simp only [hg, if_false, hr]
      obtain ⟨hsz, hnd, hmem, hcap⟩ := h
      obtain ⟨l1, l2, lsub, l3, l4⟩ :=
        lfuEvictLoop_spec st.capacity s st.freqToKeys st.size st.keyToFreqSize hnd hsz hmem
      have hknone : mapLookup st.keyToFreqSize k = none := by
        cases hx : mapLookup st.keyToFreqSize k with
        | none => rfl
        | some v => rw [hx] at hr; simp at hr
      have hknone' :
          mapLookup (lfuEvictLoop st.capacity s st.freqToKeys st.size st.keyToFreqSize).2.2
            k = none := by
        cases hx : mapLookup (lfuEvictLoop st.capacity s st.freqToKeys st.size
            st.keyToFreqSize).2.2 k with
        | none => rfl
        | some v =>
          have hmem2 := mapLookup_some_mem hx
          have := mapLookup_none_not_mem hknone (k, v) (lsub _ hmem2)
          simp at this
      have hfit : (lfuEvictLoop st.capacity s st.freqToKeys st.size st.keyToFreqSize).2.1 +
          s ≤ st.capacity := by
        rcases l4 with hfit | hempty
        · exact hfit
        · have hm : (lfuEvictLoop st.capacity s st.freqToKeys st.size st.keyToFreqSize).2.2
              = [] := by
            rw [List.eq_nil_iff_forall_not_mem]
            intro e he
            have hb := l3 e he
            rw [hempty] at hb
            obtain ⟨be, hbe, -⟩ := hb
            simp at hbe
          rw [hm] at l1
          simp [lfuTotal] at l1
          omega
      have herase : List.eraseP (fun e => e.1 == k)
          (lfuEvictLoop st.capacity s st.freqToKeys st.size st.keyToFreqSize).2.2 =
          (lfuEvictLoop st.capacity s st.freqToKeys st.size st.keyToFreqSize).2.2 :=
        mapRemove_of_none hknone'
      refine ⟨?_, ?_, ?_, ?_⟩
      · show (lfuEvictLoop st.capacity s st.freqToKeys st.size st.keyToFreqSize).2.1 + s =
          lfuTotal (mapInsert _ k (1, s))
        rw [mapInsert, herase]
        simp only [lfuTotal, List.map_cons, List.sum_cons]
        simp only [lfuTotal] at l1
        omega
      · show (mapKeys (mapInsert _ k (1, s))).Nodup
        rw [mapInsert, herase]
        simp only [mapKeys, List.map_cons, List.nodup_cons]
        constructor
        · intro hmem2
          rw [List.mem_map] at hmem2
          obtain ⟨e, he, hek⟩ := hmem2
          exact mapLookup_none_not_mem hknone' e he hek
        · exact l2
      · intro e he
        rw [mapInsert, herase] at he
        rcases List.mem_cons.mp he with rfl | htail
        · exact btreePush_self _ _ _
        · exact btreePush_mono _ _ _ _ (l3 e htail)
      · exact hfit

theorem lfuRunOps_capacity (cap : Nat) (ops : List CacheOp) :
    (lfuRunOps cap ops).capacity = cap := by
  unfold lfuRunOps
  have hbase : (LfuPolicy.new cap).capacity = cap := rfl
  generalize LfuPolicy.new cap = st at hbase ⊢
  induction ops generalizing st with
  | nil => simpa using hbase
  | cons op ops ih =>
    rw [List.foldl_cons]
    refine ih _ ?_
    cases op with
    | get k => rw [lfuApply, lfuGet_capacity]; exact hbase
    | put k s => rw [lfuApply, lfuPut_capacity]; exact hbase

theorem lfuRunOps_inv (cap : Nat) (ops : List CacheOp) : LfuInv (lfuRunOps cap ops) := by
  unfold lfuRunOps
  have hbase : LfuInv (LfuPolicy.new cap) :=
    ⟨rfl, by simp [mapKeys, LfuPolicy.new], by simp [LfuPolicy.new], by simp [LfuPolicy.new]⟩
  generalize LfuPolicy.new cap = st at hbase ⊢
  induction ops generalizing st with
  | nil => simpa using hbase
  | cons op ops ih =>
    rw [List.foldl_cons]
    refine ih _ ?_
    cases op with
    | get k => exact lfuGet_inv hbase k
    | put k s => exact lfuPut_inv hbase k s

/-- C5 (amended): for the LFU engine, the occupied size never exceeds the
capacity after any sequence of `get`/`put` operations from a fresh engine
— with no exception needed, since oversized items are skipped.  (For 2Q,
LRU and FIFO the claimed invariant fails, see the counterexample.) -/
theorem C5_lfu_size_le_capacity (cap : Nat) (ops : List CacheOp) :
    (lfuRunOps cap ops).size ≤ cap := by
  have h := (lfuRunOps_inv cap ops).2.2.2
  rwa [lfuRunOps_capacity cap ops] at h

/- ------------------------------------------------------------------
   C7: LRU eviction is minimal.  `fitFront` (spec side) is related to the
   code's tail-popping loop `lruEvictRev`.
   ------------------------------------------------------------------ -/

theorem fitFront_pre (cap s : Nat) : ∀ (l : List (Key × Nat)), fitFront cap s l <+: l := by
  intro l
  induction l generalizing cap with
  | nil => exact List.prefix_refl _
  | cons e rest ih =>
    unfold fitFront
    by_cases h : e.2 + s ≤ cap
    · rw [if_pos h]
      exact List.cons_prefix_cons.mpr ⟨rfl, ih (cap - e.2)⟩
    · rw [if_neg h]
      exact List.nil_prefix

theorem fitFront_sum (cap s : Nat) : ∀ (l : List (Key × Nat)),
    sumSizes (fitFront cap s l) + s ≤ cap ∨ fitFront cap s l = [] := by
  intro l
  induction l generalizing cap with
  | nil => exact Or.inr rfl
  | cons e rest ih =>
    unfold fitFront
    by_cases h : e.2 + s ≤ cap
    · rw [if_pos h]
      rcases ih (cap - e.2) with hfit | hnil
      · refine Or.inl ?_
        simp only [sumSizes, List.map_cons, List.sum_cons] at hfit ⊢
        omega
      · refine Or.inl ?_
        rw [hnil]
        simp only [sumSizes, List.map_cons, List.map_nil, List.sum_cons, List.sum_nil]
        omega
    · rw [if_neg h]
      exact Or.inr rfl

theorem fitFront_min (s : Nat) : ∀ (l : List (Key × Nat)) (cap : Nat) (q : List (Key × Nat)),
    q <+: l → sumSizes q + s ≤ cap → q.length ≤ (fitFront cap s l).length := by
  intro l
  induction l with
  | nil =>
    intro cap q hq _
    rw [List.prefix_nil.mp hq]
    exact Nat.le_refl _
  | cons e rest ih =>
    intro cap q hq hsum
    cases q with
    | nil => simp
    | cons q0 q' =>
      obtain ⟨rfl, hq'⟩ := List.cons_prefix_cons.mp hq
      simp only [sumSizes, List.map_cons, List.sum_cons] at hsum
      have hfit : q0.2 + s ≤ cap := by omega
      unfold fitFront
      rw [if_pos hfit]
      simp only [List.length_cons, Nat.add_le_add_iff_right]
      refine ih (cap - q0.2) q' hq' ?_
      simp only [sumSizes] at *
      omega

theorem fitFront_of_fits {cap s : Nat} : ∀ {l : List (Key × Nat)},
    sumSizes l + s ≤ cap → fitFront cap s l = l := by
  intro l
  induction l generalizing cap with
  | nil => intro _; rfl
  | cons e rest ih =>
    intro h
    simp only [sumSizes, List.map_cons, List.sum_cons] at h
    unfold fitFront
    rw [if_pos (by omega)]
    rw [@ih (cap - e.2) (by simp only [sumSizes]; omega)]

theorem fitFront_concat_over {cap s : Nat} (e : Key × Nat) : ∀ (l : List (Key × Nat)),
    ¬(sumSizes (l ++ [e]) + s ≤ cap) → fitFront cap s (l ++ [e]) = fitFront cap s l := by
  intro l
  induction l generalizing cap with
  | nil =>
    intro h
    simp only [List.nil_append] at h ⊢
    simp only [sumSizes, List.map_cons, List.map_nil, List.sum_cons, List.sum_nil] at h
    unfold fitFront
    rw [if_neg (by omega)]
  | cons e0 rest ih =>
    intro h
    rw [List.cons_append]
    unfold fitFront
    by_cases h0 : e0.2 + s ≤ cap
    · have h2 : ¬(sumSizes (rest ++ [e]) + s ≤ cap - e0.2) := by
        simp only [sumSizes, List.cons_append, List.map_cons, List.sum_cons] at h
        simp only [sumSizes]
        omega
      rw [if_pos h0, if_pos h0, ih h2]
    · rw [if_neg h0, if_neg h0]

/-- The code's eviction loop, run with an accurate tracked size, keeps
exactly the longest fitting prefix of the recency list. -/
theorem lruEvictRev_fitFront (cap s : Nat) : ∀ (l : List (Key × Nat)),
    lruEvictRev cap s (sumSizes l) l.reverse =
      (sumSizes (fitFront cap s l), (fitFront cap s l).reverse) := by
  intro l
  induction l using List.reverseRecOn with
  | nil => rfl
  | append_singleton l e ih =>
    rw [List.reverse_append]
    simp only [List.reverse_cons, List.reverse_nil, List.nil_append, List.singleton_append]
    by_cases hfit : sumSizes (l ++ [e]) + s ≤ cap
    · unfold lruEvictRev
      rw [if_pos hfit]
      rw [fitFront_of_fits hfit]
      rw [List.reverse_append]
      simp
    · unfold lruEvictRev
      rw [if_neg hfit]
      have hsub : sumSizes (l ++ [e]) - e.2 = sumSizes l := by
        simp only [sumSizes, List.map_append, List.sum_append, List.map_cons, List.map_nil,
          List.sum_cons, List.sum_nil]
        omega
      rw [hsub, ih, fitFront_concat_over e l hfit]

theorem lcContains_false_of_sublist {l l' : List (Key × Nat)} {k : Key}
    (hsub : List.Sublist l' l) (h : lcContains l k = false) : lcContains l' k = false := by
  cases hc : lcContains l' k with
  | false => rfl
  | true =>
    exfalso
    unfold lcContains at hc h
    rw [List.any_eq_true] at hc
    obtain ⟨e, he, hek⟩ := hc
    have : l.any (fun e => e.1 == k) = true := List.any_eq_true.mpr ⟨e, hsub.subset he, hek⟩
    rw [h] at this
    exact Bool.false_ne_true this

theorem length_le_sumSizes {l : List (Key × Nat)} (h : ∀ e ∈ l, 1 ≤ e.2) :
    l.length ≤ sumSizes l := by
  induction l with
  | nil => simp [sumSizes]
  | cons e rest ih =>
    simp only [List.length_cons, sumSizes, List.map_cons, List.sum_cons]
    have h1 := h e (List.mem_cons_self _ _)
    have h2 := ih (fun e' he' => h e' (List.mem_cons_of_mem _ he'))
    simp only [sumSizes] at h2
    omega

/-- C7 (amended): with an accurate state and positive sizes, a
`LruPolicy::put` of a non-resident key keeps exactly the longest prefix of
the recency list that leaves room for the new item — items are evicted from
the LRU end one at a time, only until there is room, and then the key is
admitted; no prefix longer than the kept one would have fit.  (LFU instead
drains whole frequency buckets and can evict more than needed — see the
counterexample.) -/
theorem C7_lru_put_minimal_eviction (st : LruPolicy) (k : Key) (s : Nat)
    (hacc : LruAccurate st) (hcap : 0 < st.capacity) (hs : 1 ≤ s)
    (hmem : lcContains st.cache k = false) :
    (st.put k s).cache = (k, s) :: fitFront st.capacity s st.cache ∧
      (st.put k s).size = sumSizes (fitFront st.capacity s st.cache) + s ∧
      fitFront st.capacity s st.cache <+: st.cache ∧
      (∀ q, q <+: st.cache → sumSizes q + s ≤ st.capacity →
        q.length ≤ (fitFront st.capacity s st.cache).length) := by
  obtain ⟨hacc1, hacc2⟩ := hacc
  have hev := lruEvictRev_fitFront st.capacity s st.cache
  have hpre := fitFront_pre st.capacity s st.cache
  have hcon : lcContains (fitFront st.capacity s st.cache) k = false :=
    lcContains_false_of_sublist hpre.sublist hmem
  have hlen : ((fitFront st.capacity s st.cache).length == st.capacity) = false := by
    rcases fitFront_sum st.capacity s st.cache with hfit | hnil
    · have hle : (fitFront st.capacity s st.cache).length ≤
          sumSizes (fitFront st.capacity s st.cache) :=
        length_le_sumSizes (fun e he => hacc2 e (hpre.subset he))
      simp only [beq_eq_false_iff_ne, ne_eq]
      omega
    · rw [hnil]
      simp only [List.length_nil, beq_eq_false_iff_ne, ne_eq]
      omega
  have hput : st.put k s =
      { st with
        size := sumSizes (fitFront st.capacity s st.cache) + s
        cache := (k, s) :: fitFront st.capacity s st.cache } := by
    unfold LruPolicy.put
    rw [hacc1, hev]
    simp only [List.reverse_reverse]
    unfold lcPut
    rw [if_neg (by rw [hcon]; exact Bool.false_ne_true), if_neg (by rw [hlen]; exact Bool.false_ne_true)]
  rw [hput]
  exact ⟨rfl, rfl, hpre, fitFront_min s st.cache st.capacity⟩

/-- C7 witness: an accurate capacity-5 LRU state holding `[(1,2),(2,1)]`,
receiving `put(3, 4)`: the loop evicts only the LRU entry `(2,1)`. -/
theorem C7_witness :
    (LruAccurate ⟨5, 3, [(1, 2), (2, 1)]⟩ ∧ 0 < (5 : Nat) ∧ 1 ≤ 4 ∧
        lcContains [((1 : Key), (2 : Nat)), (2, 1)] 3 = false) ∧
      ((LruPolicy.put ⟨5, 3, [(1, 2), (2, 1)]⟩ 3 4).cache =
          (3, 4) :: fitFront 5 4 [(1, 2), (2, 1)] ∧
        (LruPolicy.put ⟨5, 3, [(1, 2), (2, 1)]⟩ 3 4).size =
          sumSizes (fitFront 5 4 [(1, 2), (2, 1)]) + 4 ∧
        fitFront 5 4 [(1, 2), (2, 1)] <+: [(1, 2), (2, 1)] ∧
        (∀ q, q <+: [((1 : Key), (2 : Nat)), (2, 1)] → sumSizes q + 4 ≤ 5 →
          q.length ≤ (fitFront 5 4 [(1, 2), (2, 1)]).length)) :=
  ⟨⟨⟨by decide, by decide⟩, by decide, by decide, by decide⟩,
    C7_lru_put_minimal_eviction ⟨5, 3, [(1, 2), (2, 1)]⟩ 3 4 ⟨by decide, by decide⟩
      (by decide) (by decide) (by decide)⟩

/- ------------------------------------------------------------------
   C1: the unit-size LRU simulation and hit-count monotonicity.
   ------------------------------------------------------------------ -/

theorem contains_map_pair_true {l : List Key} {k : Key} (h : k ∈ l) :
    lcContains (l.map (fun k' => (k', (1 : Nat)))) k = true := by
  unfold lcContains
  rw [List.any_eq_true]
  exact ⟨(k, 1), List.mem_map_of_mem _ h, by simp⟩

theorem contains_map_pair_false {l : List Key} {k : Key} (h : k ∉ l) :
    lcContains (l.map (fun k' => (k', (1 : Nat)))) k = false := by
  cases hc : lcContains (l.map (fun k' => (k', (1 : Nat)))) k with
  | false => rfl
  | true =>
    exfalso
    unfold lcContains at hc
    rw [List.any_eq_true] at hc
    obtain ⟨e, he, hek⟩ := hc
    obtain ⟨a, ha, rfl⟩ := List.mem_map.mp he
    simp only [beq_iff_eq] at hek
    exact h (hek ▸ ha)

theorem find?_map_pair {k : Key} : ∀ {l : List Key}, k ∈ l →
    List.find? (fun e => e.1 == k) (l.map (fun k' => (k', (1 : Nat)))) = some (k, 1) := by
  intro l
  induction l with
  | nil => intro h; simp at h
  | cons a l ih =>
    intro h
    rw [List.map_cons]
    by_cases hak : (a == k) = true
    · rw [List.find?_cons_of_pos (p := fun e : Key × Nat => e.1 == k) _ (by simpa using hak)]
      rw [beq_iff_eq] at hak
      rw [hak]
    · rw [List.find?_cons_of_neg (p := fun e : Key × Nat => e.1 == k) _ (by simpa using hak)]
      refine ih ?_
      rcases List.mem_cons.mp h with rfl | h'
      · simp at hak
      · exact h'

theorem eraseP_map_pair (k : Key) : ∀ (l : List Key),
    List.eraseP (fun e => e.1 == k) (l.map (fun k' => (k', (1 : Nat)))) =
      (l.erase k).map (fun k' => (k', (1 : Nat))) := by
  intro l
  induction l with
  | nil => rfl
  | cons a l ih =>
    rw [List.map_cons, List.eraseP_cons, List.erase_cons]
    by_cases hak : (a == k) = true
    · simp [hak]
    · simp only [Bool.not_eq_true] at hak
      simp [hak, ih]

theorem lruEvictRev_fits {cap s size : Nat} (h : size + s ≤ cap) :
    ∀ l, lruEvictRev cap s size l = (size, l) := by
  intro l
  cases l with
  | nil => rfl
  | cons e rest =>
    unfold lruEvictRev
    rw [if_pos h]

/-- One access step of `LruPolicy` under unit sizes agrees with the
abstract recency-list model `sLruStep`. -/
theorem lruSim_step {cap : Nat} (hcap : 0 < cap) {st : LruPolicy} {L : List Key}
    (hinv : LruUnitInv cap st L) (k : Key) :
    LruUnitInv cap (lruAccess st (k, 1)).1 (sLruStep cap L k).1 ∧
      (lruAccess st (k, 1)).2 = (sLruStep cap L k).2 := by
  obtain ⟨hc, hsz, hcache, hlen⟩ := hinv
  by_cases hk : k ∈ L
  · have hcont : lcContains st.cache k = true := by
      rw [hcache]; exact contains_map_pair_true hk
    have hget : st.get k = (some (), { st with cache := lcGet st.cache k }) := by
      unfold LruPolicy.get
      rw [if_pos hcont]
    have hstep : sLruStep cap L k = (k :: L.erase k, true) := by
      unfold sLruStep
      rw [if_pos hk]
    have haccess : lruAccess st (k, 1) = ({ st with cache := lcGet st.cache k }, true) := by
      unfold lruAccess
      simp only [hget]
    rw [haccess, hstep]
    have hpos : 0 < L.length := List.length_pos.mpr (List.ne_nil_of_mem hk)
    refine ⟨⟨hc, ?_, ?_, ?_⟩, rfl⟩
    · show st.size = (k :: L.erase k).length
      rw [hsz, List.length_cons, List.length_erase_of_mem hk]
      omega
    · show lcGet st.cache k = (k :: L.erase k).map (fun k' => (k', 1))
      rw [hcache]
      unfold lcGet
      rw [find?_map_pair hk, eraseP_map_pair, List.map_cons]
    · show (k :: L.erase k).length ≤ cap
      rw [List.length_cons, List.length_erase_of_mem hk]
      omega
  · have hcont : lcContains st.cache k = false := by
      rw [hcache]; exact contains_map_pair_false hk
    have hget : st.get k = (none, st) := by
      unfold LruPolicy.get
      rw [if_neg (by rw [hcont]; exact Bool.false_ne_true)]
    have hstep : sLruStep cap L k = (k :: L.take (cap - 1), false) := by
      unfold sLruStep
      rw [if_neg hk]
    have haccess : lruAccess st (k, 1) = (st.put k 1, false) := by
      unfold lruAccess
      simp only [hget]
    rw [haccess, hstep]
    by_cases hfit : L.length + 1 ≤ cap
    · have hev : lruEvictRev st.capacity 1 st.size st.cache.reverse =
          (st.size, st.cache.reverse) :=
        lruEvictRev_fits (by rw [hsz, hc]; exact hfit) _
      have htake : L.take (cap - 1) = L := List.take_of_length_le (by omega)
      have hlenne : (st.cache.length == st.capacity) = false := by
        rw [hcache, List.length_map, hc]
        simp only [beq_eq_false_iff_ne, ne_eq]
        omega
      have hput : st.put k 1 = { st with size := st.size + 1, cache := (k, 1) :: st.cache } := by
        unfold LruPolicy.put
        rw [hev]
        simp only [List.reverse_reverse]
        unfold lcPut
        rw [if_neg (by rw [hcont]; exact Bool.false_ne_true),
          if_neg (by rw [hlenne]; exact Bool.false_ne_true)]
      rw [hput, htake]
      refine ⟨⟨hc, ?_, ?_, ?_⟩, rfl⟩
      · show st.size + 1 = (k :: L).length
        rw [hsz, List.length_cons]
      · show (k, 1) :: st.cache = (k :: L).map (fun k' => (k', 1))
        rw [List.map_cons, hcache]
      · show (k :: L).length ≤ cap
        rw [List.length_cons]
        omega
    · have hLcap : L.length = cap := by omega
      rcases List.eq_nil_or_concat L with rfl | ⟨L', a, hLa⟩
      · rw [List.length_nil] at hLcap
        omega
      · rw [List.concat_eq_append] at hLa
        subst hLa
        have hlen' : L'.length = cap - 1 := by
          rw [List.length_append, List.length_singleton] at hLcap
          omega
        have hszc : st.size = cap := by rw [hsz]; exact hLcap
        have hrev : st.cache.reverse = (a, 1) :: (L'.map (fun k' => (k', 1))).reverse := by
          rw [hcache, List.map_append, List.reverse_append]
          simp
        have hev : lruEvictRev st.capacity 1 st.size st.cache.reverse =
            (cap - 1, (L'.map (fun k' => (k', 1))).reverse) := by
          rw [hrev, hszc, hc]
          unfold lruEvictRev
          rw [if_neg (by omega)]
          show lruEvictRev cap 1 (cap - 1) ((L'.map (fun k' => (k', 1))).reverse) = _
          rw [lruEvictRev_fits (by omega)]
        have hcont' : lcContains (L'.map (fun k' => (k', (1 : Nat)))) k = false :=
          contains_map_pair_false (fun h' => hk (List.mem_append_left _ h'))
        have hlenne : ((L'.map (fun k' => (k', (1 : Nat)))).length == st.capacity) = false := by
          rw [List.length_map, hc, hlen']
          simp only [beq_eq_false_iff_ne, ne_eq]
          omega
        have hput : st.put k 1 = { st with
            size := (cap - 1) + 1
            cache := (k, 1) :: L'.map (fun k' => (k', 1)) } := by
          unfold LruPolicy.put
          rw [hev]
          simp only [List.reverse_reverse]
          unfold lcPut
          rw [if_neg (by rw [hcont']; exact Bool.false_ne_true),
            if_neg (by rw [hlenne]; exact Bool.false_ne_true)]
        have htake : (L' ++ [a]).take (cap - 1) = L' := by
          rw [← hlen']
          exact List.take_left L' [a]
        rw [hput, htake]
        refine ⟨⟨hc, ?_, ?_, ?_⟩, rfl⟩
        · show (cap - 1) + 1 = (k :: L').length
          rw [List.length_cons, hlen']
        · show (k, 1) :: L'.map (fun k' => (k', 1)) = (k :: L').map (fun k' => (k', 1))
          rw [List.map_cons]
        · show (k :: L').length ≤ cap
          rw [List.length_cons, hlen']
          omega

/-- Running a unit-size trace through `LruPolicy` scores the same hits as
the abstract model. -/
theorem lruSim_run {cap : Nat} (hcap : 0 < cap) : ∀ (tr : List (Key × Nat)) (st : LruPolicy)
    (L : List Key), (∀ e ∈ tr, e.2 = 1) → LruUnitInv cap st L →
    (lruRunFrom st tr).2 = (sLruRunFrom cap L (tr.map Prod.fst)).2 := by
  intro tr
  induction tr with
  | nil => intro st L _ _; rfl
  | cons e tr ih =>
    intro st L hu hinv
    obtain ⟨k0, s0⟩ := e
    have hs0 : s0 = 1 := hu (k0, s0) (List.mem_cons_self _ _)
    subst hs0
    obtain ⟨hstep, hbool⟩ := lruSim_step hcap hinv k0
    unfold lruRunFrom sLruRunFrom
    simp only [List.map_cons]
    rw [ih (lruAccess st (k0, 1)).1 (sLruStep cap L k0).1
      (fun e' he' => hu e' (List.mem_cons_of_mem _ he')) hstep, hbool]

/-- One step of the abstract LRU model preserves the prefix coupling
between a smaller-capacity and a larger-capacity cache, and a hit in the
small cache is a hit in the large one. -/
theorem sLru_mono_step {c1 c2 : Nat} (h12 : c1 ≤ c2) {l1 l2 : List Key}
    (hpre : l1 <+: l2) (k : Key) :
    (sLruStep c1 l1 k).1 <+: (sLruStep c2 l2 k).1 ∧
      ((sLruStep c1 l1 k).2 = true → (sLruStep c2 l2 k).2 = true) := by
  unfold sLruStep
  by_cases hk1 : k ∈ l1
  · have hk2 : k ∈ l2 := hpre.subset hk1
    rw [if_pos hk1, if_pos hk2]
    obtain ⟨t, rfl⟩ := hpre
    refine ⟨?_, fun _ => rfl⟩
    rw [List.erase_append_left _ hk1]
    exact List.cons_prefix_cons.mpr ⟨rfl, List.prefix_append _ _⟩
  · rw [if_neg hk1]
    by_cases hk2 : k ∈ l2
    · rw [if_pos hk2]
      obtain ⟨t, rfl⟩ := hpre
      have hkt : k ∈ t := by
        rcases List.mem_append.mp hk2 with h | h
        · exact absurd h hk1
        · exact h
      refine ⟨?_, fun _ => rfl⟩
      rw [List.erase_append_right _ hk1]
      refine List.cons_prefix_cons.mpr ⟨rfl, ?_⟩
      exact (List.take_prefix _ _).trans (List.prefix_append _ _)
    · rw [if_neg hk2]
      refine ⟨?_, fun h => h⟩
      refine List.cons_prefix_cons.mpr ⟨rfl, ?_⟩
      obtain ⟨t, rfl⟩ := hpre
      calc l1.take (c1 - 1) = (l1.take (c2 - 1)).take (c1 - 1) := by
            rw [List.take_take, Nat.min_eq_left (by omega)]
        _ <+: l1.take (c2 - 1) := List.take_prefix _ _
        _ <+: (l1 ++ t).take (c2 - 1) := by
            rw [List.take_append_eq_append_take]
            exact List.prefix_append _ _
  -- both-hit bool goal is closed above

/-- Hit counts of the abstract LRU model are monotone in capacity. -/
theorem sLru_mono_run {c1 c2 : Nat} (h12 : c1 ≤ c2) : ∀ (ks : List Key)
    (l1 l2 : List Key), l1 <+: l2 →
    (sLruRunFrom c1 l1 ks).2 ≤ (sLruRunFrom c2 l2 ks).2 := by
  intro ks
  induction ks with
  | nil => intro l1 l2 _; exact Nat.le_refl _
  | cons k ks ih =>
    intro l1 l2 hpre
    obtain ⟨hstep, hbool⟩ := sLru_mono_step h12 hpre k
    unfold sLruRunFrom
    have hrec := ih _ _ hstep
    have hif : (if (sLruStep c1 l1 k).2 then (1 : Nat) else 0) ≤
        (if (sLruStep c2 l2 k).2 then (1 : Nat) else 0) := by
      cases hb1 : (sLruStep c1 l1 k).2 with
      | false => simp
      | true => rw [hbool hb1]
    exact Nat.add_le_add hif hrec

/-- C1 (amended): for traces in which every access has size 1, the LRU
engine's hit ratio is monotone in the capacity: a larger cache never
performs worse.  (For general sizes, and for FIFO even at unit sizes, the
claim fails — see the counterexample.) -/
theorem C1_lru_unit_hit_rate_monotone (c1 c2 : Nat) (tr : List (Key × Nat))
    (h1 : 0 < c1) (h12 : c1 ≤ c2) (hu : ∀ e ∈ tr, e.2 = 1) :
    lruHitRate c1 tr ≤ lruHitRate c2 tr := by
  have hc2 : 0 < c2 := Nat.lt_of_lt_of_le h1 h12
  have hinv1 : LruUnitInv c1 (LruPolicy.new c1) [] := ⟨rfl, rfl, rfl, by simp⟩
  have hinv2 : LruUnitInv c2 (LruPolicy.new c2) [] := ⟨rfl, rfl, rfl, by simp⟩
  have e1 : lruHitCount c1 tr = (sLruRunFrom c1 [] (tr.map Prod.fst)).2 :=
    lruSim_run h1 tr _ [] hu hinv1
  have e2 : lruHitCount c2 tr = (sLruRunFrom c2 [] (tr.map Prod.fst)).2 :=
    lruSim_run hc2 tr _ [] hu hinv2
  have hmono : lruHitCount c1 tr ≤ lruHitCount c2 tr := by
    rw [e1, e2]
    exact sLru_mono_run h12 (tr.map Prod.fst) [] [] (List.prefix_refl _)
  unfold lruHitRate
  refine div_le_div_of_nonneg_right ?_ (by positivity)
  exact_mod_cast hmono

/-- C1 witness: a two-access unit-size trace at capacities 1 and 2. -/
theorem C1_witness :
    (0 < 1 ∧ 1 ≤ 2 ∧ (∀ e ∈ [((5 : Key), (1 : Nat)), (5, 1)], e.2 = 1)) ∧
      lruHitRate 1 [(5, 1), (5, 1)] ≤ lruHitRate 2 [(5, 1), (5, 1)] :=
  ⟨⟨by decide, by decide, by decide⟩,
    C1_lru_unit_hit_rate_monotone 1 2 [(5, 1), (5, 1)] (by decide) (by decide) (by decide)⟩

/-- C4 witness: a fresh LFU engine of capacity 2 skips `put(1,5)` outright;
a fresh 2Q engine of capacity 2 leaves key 1 unadmitted on `put(1,5)`;
LRU and FIFO engines admit key 1 on `put(1,5)` despite the overflow. -/
theorem C4_witness :
    (((LfuPolicy.new 2).capacity = 0 ∨ (LfuPolicy.new 2).capacity < 5) ∧
        (LfuPolicy.new 2).put 1 5 = LfuPolicy.new 2) ∧
      (mapLookup (TwoQPolicy.new 2).coldMap 1 = none ∧
        (TwoQPolicy.new 2).hot.findIdx? (fun k' => k' == 1) = none ∧
        mapLookup (TwoQPolicy.new 2).keyToSize 1 = none ∧
        (TwoQPolicy.new 2).capacity < 5 ∧
        (mapLookup (((TwoQPolicy.new 2).put 1 5).keyToSize) 1 = none ∧
          ((TwoQPolicy.new 2).put 1 5).hot = [] ∧ ((TwoQPolicy.new 2).put 1 5).cold = [])) ∧
      lcContains (((LruPolicy.new 2).put 1 5).cache) 1 = true ∧
      mapLookup (((FifoPolicy.new 2).put 1 5).cache) 1 = some 5 :=
  ⟨⟨by decide, C4_oversize_put_behavior.1 (LfuPolicy.new 2) 1 5 (by decide)⟩,
    ⟨by decide, by decide, by decide, by decide,
      C4_oversize_put_behavior.2.1 (TwoQPolicy.new 2) 1 5 (by decide) (by decide)
        (by decide) (by decide)⟩,
    C4_oversize_put_behavior.2.2.1 (LruPolicy.new 2) 1 5,
    C4_oversize_put_behavior.2.2.2 (FifoPolicy.new 2) 1 5⟩

end CacheMrc
